import Mathlib

/-!
# A heap-backed LRU cache (`go/lru/lru.go`)

A shallow embedding of the Go package `lru` and of the functions of the Go
standard library package `container/heap` that it calls.

* Entries are shared by pointer between the map `entries` and the slice `heap`.
  The embedding keeps an explicit object store `mem`: a pointer `*entry` is an
  index into `mem`, and a field write through a pointer is a `List.set` on `mem`.
* `time.Now().Unix()` is an input `now` of the operation that reads it.
* A key is a value: the caller does not write to the bytes of a key slice after it
  has handed the slice to `Put`.
* Go `int` and `int64` are `Int`; the only arithmetic is on slice indices, which
  are bounded by the slice length.
* A run-time panic (index out of range) is the result `none`.  The loops of
  `container/heap` run on a fuel counter; running out of fuel is `none` too, so a
  result `some _` says that the call returned normally.
-/

set_option autoImplicit false

namespace lru

/-- A key is a Go byte slice; the map is indexed by `string(key)`, the same bytes. -/
abbrev Key := List (Fin 256)

/-- The Go struct `entry`.  A value of type `any` is `Option V`, `none` being `nil`. -/
structure entry (V : Type) where
  heapIdx : Int
  lastAccessTime : Int
  key : Key
  val : Option V
deriving DecidableEq

/-- The object store: the `entry` objects allocated so far.  A pointer `*entry` is an
address in it, a `Nat`. -/
abbrev Mem (V : Type) := List (entry V)

/-- The Go type `lastAccessHeap`, a slice of entry pointers. -/
abbrev lastAccessHeap := List Nat

/-- Slice indexing `s[i]`: a panic outside `0 ≤ i < len(s)`. -/
def index {α : Type} (s : List α) (i : Int) : Option α :=
  if 0 ≤ i then s[i.toNat]? else none

/-- The receiver `h *lastAccessHeap` together with the store its pointers live in. -/
structure HeapRef (V : Type) where
  mem : Mem V
  h : lastAccessHeap
deriving DecidableEq

variable {V : Type}

/-- The method `(*lastAccessHeap).Len`. -/
def Len (s : HeapRef V) : Int := (s.h.length : Int)

/-- The method `(*lastAccessHeap).Less`: `hv[i].lastAccessTime < hv[j].lastAccessTime`. -/
def Less (s : HeapRef V) (i j : Int) : Option Bool := do
  let p ← index s.h i
  let a ← s.mem[p]?
  let q ← index s.h j
  let b ← s.mem[q]?
  pure (decide (a.lastAccessTime < b.lastAccessTime))

/-- The method `(*lastAccessHeap).Swap`: exchange slots `i` and `j`, then write the
slot numbers into the `heapIdx` of the two entries now standing there. -/
def Swap (s : HeapRef V) (i j : Int) : Option (HeapRef V) := do
  let p ← index s.h i
  let q ← index s.h j
  let h1 := (s.h.set i.toNat q).set j.toNat p
  let a ← index h1 i
  let ea ← s.mem[a]?
  let m1 := s.mem.set a { ea with heapIdx := i }
  let b ← index h1 j
  let eb ← m1[b]?
  let m2 := m1.set b { eb with heapIdx := j }
  pure { mem := m2, h := h1 }

/-- The method `(*lastAccessHeap).Push`: `e.heapIdx = len(*h)`, then append. -/
def Push (s : HeapRef V) (x : Nat) : Option (HeapRef V) := do
  let e ← s.mem[x]?
  let m1 := s.mem.set x { e with heapIdx := (s.h.length : Int) }
  pure { mem := m1, h := s.h ++ [x] }

/-- The method `(*lastAccessHeap).Pop`: return `old[n-1]` and cut the slice to
`old[0 : n-1]`. -/
def Pop (s : HeapRef V) : Option (HeapRef V × Nat) := do
  let n : Int := (s.h.length : Int)
  let x ← index s.h (n - 1)
  pure ({ s with h := s.h.take (n - 1).toNat }, x)

/-- The loop of `container/heap.up`, one iteration per unit of fuel:
`i := (j - 1) / 2; if i == j || !h.Less(j, i) { break }; h.Swap(i, j); j = i`.
Go's integer division truncates toward zero. -/
def heap.upLoop : Nat → HeapRef V → Int → Option (HeapRef V)
  | 0, _, _ => none
  | fuel + 1, s, j =>
    let i := Int.tdiv (j - 1) 2
    if i = j then some s
    else
      match Less s j i with
      | none => none
      | some false => some s
      | some true =>
        match Swap s i j with
        | none => none
        | some s1 => heap.upLoop fuel s1 i

/-- The function `container/heap.up`. -/
def heap.up (s : HeapRef V) (j : Int) : Option (HeapRef V) :=
  heap.upLoop (j.toNat + 1) s j

/-- The loop of `container/heap.down`; the result carries the final `i`.
```
j1 := 2*i + 1
if j1 >= n || j1 < 0 { break }
j := j1
if j2 := j1 + 1; j2 < n && h.Less(j2, j1) { j = j2 }
if !h.Less(j, i) { break }
h.Swap(i, j)
i = j
```
-/
def heap.downLoop : Nat → HeapRef V → Int → Int → Option (HeapRef V × Int)
  | 0, _, _, _ => none
  | fuel + 1, s, n, i =>
    let j1 := 2 * i + 1
    if j1 ≥ n ∨ j1 < 0 then some (s, i)
    else
      let j2 := j1 + 1
      let pick : Option Int :=
        if j2 < n then
          match Less s j2 j1 with
          | none => none
          | some true => some j2
          | some false => some j1
        else some j1
      match pick with
      | none => none
      | some j =>
        match Less s j i with
        | none => none
        | some false => some (s, i)
        | some true =>
          match Swap s i j with
          | none => none
          | some s1 => heap.downLoop fuel s1 n j

/-- The function `container/heap.down`, which reports whether the element moved:
`return i > i0`. -/
def heap.down (s : HeapRef V) (i0 n : Int) : Option (HeapRef V × Bool) :=
  match heap.downLoop (n.toNat + 1) s n i0 with
  | none => none
  | some (s1, i) => some (s1, decide (i > i0))

/-- The function `container/heap.Push`: `h.Push(x); up(h, h.Len()-1)`. -/
def heap.Push (s : HeapRef V) (x : Nat) : Option (HeapRef V) := do
  let s1 ← lru.Push s x
  heap.up s1 (Len s1 - 1)

/-- The function `container/heap.Pop`:
`n := h.Len() - 1; h.Swap(0, n); down(h, 0, n); return h.Pop()`. -/
def heap.Pop (s : HeapRef V) : Option (HeapRef V × Nat) := do
  let n := Len s - 1
  let s1 ← Swap s 0 n
  let r ← heap.down s1 0 n
  lru.Pop r.1

/-- The function `container/heap.Fix`: `if !down(h, i, h.Len()) { up(h, i) }`. -/
def heap.Fix (s : HeapRef V) (i : Int) : Option (HeapRef V) := do
  let r ← heap.down s i (Len s)
  if r.2 then pure r.1 else heap.up r.1 i

/-- Lookup in a Go map `map[string]*entry`, held as an association list. -/
def mapGet : List (Key × Nat) → Key → Option Nat
  | [], _ => none
  | (k', p) :: m, k => if k' = k then some p else mapGet m k

/-- The Go builtin `delete(m, k)`. -/
def mapDelete (m : List (Key × Nat)) (k : Key) : List (Key × Nat) :=
  m.filter (fun kp => decide (kp.1 ≠ k))

/-- The Go map assignment `m[k] = p`. -/
def mapSet (m : List (Key × Nat)) (k : Key) (p : Nat) : List (Key × Nat) :=
  (k, p) :: mapDelete m k

/-- The Go struct `LRU`, with the object store of its entries. -/
structure LRU (V : Type) where
  capacity : Int
  entries : List (Key × Nat)
  heap : lastAccessHeap
  mem : Mem V
deriving DecidableEq

/-- The constructor `NewLRU`. -/
def NewLRU (capacity : Int) : LRU V :=
  { capacity := capacity, entries := [], heap := [], mem := [] }

/-- The method `(*LRU).Get`; `now` is the reading of `time.Now().Unix()`.  The result
is the cache after the call and the returned pair. -/
def Get (l : LRU V) (key : Key) (now : Int) : Option (LRU V × (Option V × Bool)) :=
  match mapGet l.entries key with
  | none => some (l, (none, false))
  | some p => do
    let e ← l.mem[p]?
    let s ← if e.lastAccessTime ≠ now then heap.Fix ⟨l.mem, l.heap⟩ e.heapIdx
            else some ⟨l.mem, l.heap⟩
    let e1 ← s.mem[p]?
    pure ({ l with mem := s.mem, heap := s.h }, (e1.val, true))

/-- The method `(*LRU).Put`; `now` is the reading of `time.Now().Unix()`. -/
def Put (l : LRU V) (key : Key) (val : Option V) (now : Int) : Option (LRU V) :=
  match mapGet l.entries key with
  | some p => do
    let e ← l.mem[p]?
    let m1 := l.mem.set p { e with val := val }
    let s ← if e.lastAccessTime ≠ now then heap.Fix ⟨m1, l.heap⟩ e.heapIdx
            else some ⟨m1, l.heap⟩
    pure { l with mem := s.mem, heap := s.h }
  | none => do
    let l1 ←
      if (l.entries.length : Int) ≥ l.capacity then do
        let r ← heap.Pop ⟨l.mem, l.heap⟩
        let oldest ← r.1.mem[r.2]?
        pure { l with mem := r.1.mem, heap := r.1.h,
                      entries := mapDelete l.entries oldest.key }
      else some l
    let e : entry V := { heapIdx := 0, lastAccessTime := now, key := key, val := val }
    let p : Nat := l1.mem.length
    let s ← heap.Push ⟨l1.mem ++ [e], l1.heap⟩ p
    pure { l1 with mem := s.mem, heap := s.h, entries := mapSet l1.entries key p }

/-- One call on the cache. -/
inductive Op (V : Type) where
  | put (key : Key) (val : Option V) (now : Int)
  | get (key : Key) (now : Int)

/-- The cache after one call, `none` if the call panics. -/
def step (l : LRU V) : Op V → Option (LRU V)
  | .put k v t => Put l k v t
  | .get k t => (Get l k t).map Prod.fst

/-- The cache after a sequence of calls, `none` if one of them panics. -/
def run (l : LRU V) : List (Op V) → Option (LRU V)
  | [] => some l
  | o :: os => (step l o).bind (fun l1 => run l1 os)

/-! ## Predicates of the verification -/

/-- The fields of the stored entries that `Swap` and `Push` never write: all but
`heapIdx`. -/
def data (m : Mem V) : List (Int × Key × Option V) :=
  m.map (fun e => (e.lastAccessTime, e.key, e.val))

/-- The `lastAccessTime` behind a pointer (0 for a dangling pointer). -/
def timeOf (m : Mem V) (p : Nat) : Int :=
  match m[p]? with
  | some e => e.lastAccessTime
  | none => 0

/-- The `lastAccessTime` of the entry at heap slot `i` (0 outside the slice). -/
def slotTime (s : HeapRef V) (i : Nat) : Int :=
  match s.h[i]? with
  | some p => timeOf s.mem p
  | none => 0

/-- Invariant I2: every slot holds a live pointer whose entry records that slot
number in `heapIdx`. -/
def IdxOk (s : HeapRef V) : Prop :=
  ∀ (i : Nat) (p : Nat), s.h[i]? = some p →
    ∃ e, s.mem[p]? = some e ∧ e.heapIdx = (i : Int)

/-- The min-heap property on the first `n` slots: no slot is older than its parent. -/
def HeapOrdN (s : HeapRef V) (n : Nat) : Prop :=
  ∀ k, 0 < k → k < n → slotTime s ((k - 1) / 2) ≤ slotTime s k

/-- The min-heap property on the whole slice. -/
def HeapOrd (s : HeapRef V) : Prop := HeapOrdN s s.h.length

/-- The heap property with a hole for sifting up: every edge holds except the one
above slot `j`, and the children of `j` are not older than the parent of `j`. -/
def UpInv (s : HeapRef V) (n j : Nat) : Prop :=
  (∀ k, 0 < k → k < n → k ≠ j → slotTime s ((k - 1) / 2) ≤ slotTime s k) ∧
  (∀ k, 0 < k → k < n → (k - 1) / 2 = j → 0 < j →
    slotTime s ((j - 1) / 2) ≤ slotTime s k)

/-- The heap property with a hole for sifting down: every edge holds except those
below slot `i`, and the children of `i` are not older than the parent of `i`. -/
def DownInv (s : HeapRef V) (n i : Nat) : Prop :=
  (∀ k, 0 < k → k < n → (k - 1) / 2 ≠ i → slotTime s ((k - 1) / 2) ≤ slotTime s k) ∧
  (∀ k, 0 < k → k < n → (k - 1) / 2 = i → 0 < i →
    slotTime s ((i - 1) / 2) ≤ slotTime s k)

/-- The key behind a pointer. -/
def keyOf (m : Mem V) (p : Nat) : Option Key := (m[p]?).map (fun e => e.key)

/-- The well-formedness of a cache state: I2 and I3 on the heap, a table without
repeated keys, and I1, the table and the heap holding the same entries. -/
structure Wf (l : LRU V) : Prop where
  idx : IdxOk ⟨l.mem, l.heap⟩
  ord : HeapOrd ⟨l.mem, l.heap⟩
  nodup : (l.entries.map Prod.fst).Nodup
  len : l.entries.length = l.heap.length
  corr : ∀ k p, mapGet l.entries k = some p ↔ (p ∈ l.heap ∧ keyOf l.mem p = some k)

/-- The invariant of the states of a cache with a positive capacity. -/
structure Inv (l : LRU V) : Prop where
  wf : Wf l
  pos : 1 ≤ l.capacity
  cap : (l.entries.length : Int) ≤ l.capacity

/-- The eviction step of `Put`, lines 58 to 61, as a function of its own. -/
def Put.evict (l : LRU V) : Option (LRU V) := do
  let r ← heap.Pop ⟨l.mem, l.heap⟩
  let oldest ← r.1.mem[r.2]?
  pure { l with mem := r.1.mem, heap := r.1.h,
                entries := mapDelete l.entries oldest.key }

/-- The insertion step of `Put`, lines 62 to 68, as a function of its own. -/
def Put.insert (l1 : LRU V) (key : Key) (val : Option V) (now : Int) : Option (LRU V) := do
  let e : entry V := { heapIdx := 0, lastAccessTime := now, key := key, val := val }
  let p : Nat := l1.mem.length
  let s ← heap.Push ⟨l1.mem ++ [e], l1.heap⟩ p
  pure { l1 with mem := s.mem, heap := s.h, entries := mapSet l1.entries key p }

/-- The states that `Put` and `Get` calls lead to from `NewLRU(C)`. -/
inductive Reachable (C : Int) : LRU V → Prop where
  | init : Reachable C (NewLRU C)
  | put (l l' : LRU V) (k : Key) (v : Option V) (t : Int) :
      Reachable C l → Put l k v t = some l' → Reachable C l'
  | get (l l' : LRU V) (k : Key) (t : Int) (r : Option V × Bool) :
      Reachable C l → Get l k t = some (l', r) → Reachable C l'

/-- What the cache holds under a key: the `lastAccessTime` and the value of the entry
that the table maps the key to. -/
def held (l : LRU V) (k : Key) : Option (Int × Option V) :=
  (mapGet l.entries k).bind (fun p => ((data l.mem)[p]?).map (fun d => (d.1, d.2.2)))

/-- The pair a `Get` hands back for what is held under the key. -/
def answer : Option (Int × Option V) → Option V × Bool
  | some d => (d.2, true)
  | none => (none, false)

/-- The calls `Put(k, v)` at clock reading `t`, one for each triple `(k, v, t)`. -/
def putOps (ps : List (Key × Option V × Int)) : List (Op V) :=
  ps.map (fun p => Op.put p.1 p.2.1 p.2.2)

/-- The outcome of the call `NewLRU(capacity)`, `none` standing for a panic or an
error.  The body of `NewLRU` is one composite literal: it tests nothing, and none of
its steps can panic. -/
def NewLRU.call (capacity : Int) : Option (LRU V) := some (NewLRU capacity)

/-! ## Concrete keys and states for the examples -/

/-- The key `"a"`. -/
def keyA : Key := [97]

/-- The key `"b"`. -/
def keyB : Key := [98]

/-- The key `"c"`. -/
def keyC : Key := [99]

/-- The cache `NewLRU(2)` after `Put("a", 1)` at clock reading 1. -/
def exOne : LRU Nat :=
  { capacity := 2,
    entries := [(keyA, 0)],
    heap := [0],
    mem := [{ heapIdx := 0, lastAccessTime := 1, key := keyA, val := some 1 }] }

/-- The cache `NewLRU(2)` after `Put("a", 1)` at clock reading 1 and `Put("b", 2)` at
clock reading 2: a full cache. -/
def exFull : LRU Nat :=
  { capacity := 2,
    entries := [(keyB, 1), (keyA, 0)],
    heap := [0, 1],
    mem := [{ heapIdx := 0, lastAccessTime := 1, key := keyA, val := some 1 },
            { heapIdx := 1, lastAccessTime := 2, key := keyB, val := some 2 }] }

/-- The key `"d"`. -/
def keyD : Key := [100]

/-- The key `"e"`. -/
def keyE : Key := [101]

/-! ## The reference FIFO cache of claim C16

Written from the words of the claim: a queue of keys with their values, front first.
A new key is appended to the queue after dropping the queue's front when `C` keys are
held; a `Put` on a held key replaces its value without moving it; `Get` never moves
anything. -/

/-- The value that the reference queue holds under a key. -/
def fifoLookup : List (Key × Option V) → Key → Option (Option V)
  | [], _ => none
  | (k', v) :: q, k => if k' = k then some v else fifoLookup q k

/-- The reference `Get`: the value and `true` for a held key, `(nil, false)` otherwise. -/
def fifoGet (q : List (Key × Option V)) (k : Key) : Option V × Bool :=
  match fifoLookup q k with
  | some v => (v, true)
  | none => (none, false)

/-- The reference `Put`. -/
def fifoPut (C : Int) (q : List (Key × Option V)) (k : Key) (v : Option V) :
    List (Key × Option V) :=
  match fifoLookup q k with
  | some _ => q.map (fun e => if e.1 = k then (e.1, v) else e)
  | none => (if (q.length : Int) = C then q.tail else q) ++ [(k, v)]

/-- The results of the `Get` calls of a sequence of calls on the reference queue. -/
def fifoResults (C : Int) (q : List (Key × Option V)) : List (Op V) → List (Option V × Bool)
  | [] => []
  | Op.put k v _ :: os => fifoResults C (fifoPut C q k v) os
  | Op.get k _ :: os => fifoGet q k :: fifoResults C q os

/-- The results of the `Get` calls of a sequence of calls on the cache, `none` if a
call panics. -/
def getResults (l : LRU V) : List (Op V) → Option (List (Option V × Bool))
  | [] => some []
  | Op.put k v t :: os => (Put l k v t).bind (fun l1 => getResults l1 os)
  | Op.get k t :: os =>
    (Get l k t).bind (fun r => (getResults r.1 os).map (fun rs => r.2 :: rs))

/-- The clock reading of a call. -/
def clockOf : Op V → Int
  | Op.put _ _ t => t
  | Op.get _ t => t

/-- What a queue of keys with values and insertion times holds under a key. -/
def lookupT : List (Key × Option V × Int) → Key → Option (Int × Option V)
  | [], _ => none
  | (k', v, t) :: q, k => if k' = k then some (t, v) else lookupT q k

/-- The queue without its insertion times. -/
def untimed (tq : List (Key × Option V × Int)) : List (Key × Option V) :=
  tq.map (fun e => (e.1, e.2.1))

/-- The simulation between the cache and the reference queue: the queue lists what the
cache holds, in the strict order of the `lastAccessTime` fields. -/
structure Sim (C : Int) (l : LRU V) (tq : List (Key × Option V × Int)) : Prop where
  inv : Inv l
  cap : l.capacity = C
  len : tq.length = l.entries.length
  keys : (tq.map (fun e => e.1)).Nodup
  times : (tq.map (fun e => e.2.2)).Pairwise (fun a b => a < b)
  held : ∀ k, held l k = lookupT tq k

/-- The cache `NewLRU(4)` after `Put` of `"a"`, `"b"`, `"c"`, `"d"` with the values
1, 2, 3, 4 at the clock readings 1, 2, 3, 4. -/
def exFour : LRU Nat :=
  { capacity := 4,
    entries := [(keyD, 3), (keyC, 2), (keyB, 1), (keyA, 0)],
    heap := [0, 1, 2, 3],
    mem := [{ heapIdx := 0, lastAccessTime := 1, key := keyA, val := some 1 },
            { heapIdx := 1, lastAccessTime := 2, key := keyB, val := some 2 },
            { heapIdx := 2, lastAccessTime := 3, key := keyC, val := some 3 },
            { heapIdx := 3, lastAccessTime := 4, key := keyD, val := some 4 }] }

/-- A heap of four entries with accurate `heapIdx` fields and the slot times
5, 10, 6, 1: the only relations that are out of order are those of slot 1, but its
child at slot 3 is older than its parent at slot 0. -/
def exBroken : HeapRef Nat :=
  { mem := [{ heapIdx := 0, lastAccessTime := 5, key := keyA, val := some 1 },
            { heapIdx := 1, lastAccessTime := 10, key := keyB, val := some 2 },
            { heapIdx := 2, lastAccessTime := 6, key := keyC, val := some 3 },
            { heapIdx := 3, lastAccessTime := 1, key := keyD, val := some 4 }],
    h := [0, 1, 2, 3] }

/-! ## Slices, the store and the two primitive methods -/

theorem index_natCast {α : Type} (s : List α) (i : Nat) : index s (i : Int) = s[i]? := by
  simp [index]

theorem data_length (m : Mem V) : (data m).length = m.length := by
  simp [data]

theorem data_set_heapIdx (m : Mem V) (p : Nat) (e : entry V) (x : Int)
    (h : m[p]? = some e) : data (m.set p { e with heapIdx := x }) = data m := by
  apply List.ext_getElem?
  intro n
  simp only [data, List.getElem?_map, List.getElem?_set]
  by_cases hp : p = n
  · subst hp
    have hlt : p < m.length := by
      rcases List.getElem?_eq_some.1 h with ⟨hl, _⟩
      exact hl
    simp [hlt, h]
  · simp [hp]

theorem timeOf_congr (m m' : Mem V) (h : data m' = data m) (p : Nat) :
    timeOf m' p = timeOf m p := by
  have h1 : (data m')[p]? = (data m)[p]? := by rw [h]
  simp only [data, List.getElem?_map] at h1
  unfold timeOf
  cases h2 : m'[p]? <;> cases h3 : m[p]? <;> simp_all

theorem IdxOk_inj {s : HeapRef V} (hok : IdxOk s) {i j : Nat} {p : Nat}
    (hi : s.h[i]? = some p) (hj : s.h[j]? = some p) : i = j := by
  obtain ⟨e, he, hie⟩ := hok i p hi
  obtain ⟨e', he', hje⟩ := hok j p hj
  rw [he] at he'
  cases he'
  omega

theorem IdxOk_nodup {s : HeapRef V} (hok : IdxOk s) : s.h.Nodup := by
  rw [List.nodup_iff_getElem?_ne_getElem?]
  intro i j hij hj heq
  have hi : i < s.h.length := by omega
  have h1 : s.h[i]? = some s.h[i] := List.getElem?_eq_getElem hi
  have h2 : s.h[j]? = some s.h[i] := by rw [← heq, h1]
  have := IdxOk_inj hok h1 h2
  omega

theorem Less_eq (s : HeapRef V) (i j : Nat) (hok : IdxOk s)
    (hi : i < s.h.length) (hj : j < s.h.length) :
    Less s i j = some (decide (slotTime s i < slotTime s j)) := by
  have h1 : s.h[i]? = some s.h[i] := List.getElem?_eq_getElem hi
  have h2 : s.h[j]? = some s.h[j] := List.getElem?_eq_getElem hj
  obtain ⟨a, ha, _⟩ := hok i _ h1
  obtain ⟨b, hb, _⟩ := hok j _ h2
  simp [Less, index_natCast, h1, h2, ha, hb, slotTime, timeOf]

theorem getElem?_lt {α : Type} {l : List α} {i : Nat} {a : α} (h : l[i]? = some a) :
    i < l.length := (List.getElem?_eq_some.1 h).1

theorem Swap_spec (s : HeapRef V) (i j : Nat) (p q : Nat) (hok : IdxOk s)
    (hi : s.h[i]? = some p) (hj : s.h[j]? = some q) :
    ∃ m', Swap s i j = some ⟨m', (s.h.set i q).set j p⟩ ∧ data m' = data s.mem ∧
      IdxOk ⟨m', (s.h.set i q).set j p⟩ := by
  have hil : i < s.h.length := getElem?_lt hi
  have hjl : j < s.h.length := getElem?_lt hj
  obtain ⟨ep, hep, hepi⟩ := hok i p hi
  obtain ⟨eq, heq, heqj⟩ := hok j q hj
  have hpl : p < s.mem.length := getElem?_lt hep
  have hql : q < s.mem.length := getElem?_lt heq
  by_cases hij : i = j
  · subst hij
    have hpq : p = q := by rw [hi] at hj; exact Option.some.inj hj
    subst hpq
    rw [hep] at heq
    cases heq
    refine ⟨(s.mem.set p { ep with heapIdx := i }).set p { ep with heapIdx := i }, ?_, ?_, ?_⟩
    · simp [Swap, index_natCast, hi, List.getElem?_set, hil, hep, hpl]
    · rw [data_set_heapIdx _ _ _ _ (by simp [List.getElem?_set, hpl]; cases ep; simp_all),
        data_set_heapIdx _ _ _ _ hep]
    · intro k r hk
      simp only [List.getElem?_set, List.length_set] at hk
      by_cases hki : i = k
      · subst hki
        simp [hil] at hk
        subst hk
        exact ⟨{ ep with heapIdx := i }, by simp [List.getElem?_set, hpl], rfl⟩
      · simp [hki] at hk
        have hne : p ≠ r := by
          intro h
          subst h
          exact hki (IdxOk_inj hok hi hk)
        obtain ⟨e, he, hek⟩ := hok k r hk
        exact ⟨e, by simp [List.getElem?_set, hne, he], hek⟩
  · have hpq : p ≠ q := by
      intro h
      subst h
      exact hij (IdxOk_inj hok hi hj)
    refine ⟨(s.mem.set q { eq with heapIdx := i }).set p { ep with heapIdx := j }, ?_, ?_, ?_⟩
    · have hji : ¬ j = i := fun h => hij h.symm
      have hqp : ¬ q = p := fun h => hpq h.symm
      simp [Swap, index_natCast, hi, hj, List.getElem?_set, hil, hjl, hep, heq, hpl, hql,
        hij, hji, hpq, hqp]
    · rw [data_set_heapIdx _ _ _ _ (by simp [List.getElem?_set, hpq, Ne.symm hpq, hep]),
        data_set_heapIdx _ _ _ _ heq]
    · intro k r hk
      simp only [List.getElem?_set, List.length_set] at hk
      by_cases hkj : j = k
      · subst hkj
        simp [hjl] at hk
        subst hk
        exact ⟨{ ep with heapIdx := j }, by simp [List.getElem?_set, hpl], rfl⟩
      · by_cases hki : i = k
        · subst hki
          simp [hkj, hil] at hk
          subst hk
          exact ⟨{ eq with heapIdx := i }, by simp [List.getElem?_set, hpq, hql], rfl⟩
        · simp [hkj, hki] at hk
          have hne1 : p ≠ r := by
            intro h
            subst h
            exact hki (IdxOk_inj hok hi hk)
          have hne2 : q ≠ r := by
            intro h
            subst h
            exact hkj (IdxOk_inj hok hj hk)
          obtain ⟨e, he, hek⟩ := hok k r hk
          exact ⟨e, by simp [List.getElem?_set, hne1, hne2, he], hek⟩

theorem slotTime_swap (s : HeapRef V) (i j : Nat) (p q : Nat) (m' : Mem V)
    (hi : s.h[i]? = some p) (hj : s.h[j]? = some q) (hd : data m' = data s.mem) (k : Nat) :
    slotTime ⟨m', (s.h.set i q).set j p⟩ k =
      slotTime s (if k = j then i else if k = i then j else k) := by
  have hil : i < s.h.length := getElem?_lt hi
  have hjl : j < s.h.length := getElem?_lt hj
  unfold slotTime
  simp only [List.getElem?_set, List.length_set, timeOf_congr _ _ hd]
  by_cases hkj : k = j
  · subst hkj
    simp [hjl, hi]
  · by_cases hki : k = i
    · subst hki
      simp [hkj, Ne.symm hkj, hil, hj]
    · simp [hkj, hki, Ne.symm hkj, Ne.symm hki]

theorem set_cons_perm {α : Type} (x : α) :
    ∀ (t : List α) (n : Nat) (q : α), t[n]? = some q → (q :: t.set n x).Perm (x :: t)
  | [], _, _, h => by simp at h
  | y :: t, 0, q, h => by
    simp at h
    subst h
    exact List.Perm.swap _ _ _
  | y :: t, n + 1, q, h => by
    simp at h
    have ih := set_cons_perm x t n q h
    simp only [List.set_cons_succ]
    exact (List.Perm.swap _ _ _).trans (((List.Perm.cons y ih)).trans (List.Perm.swap _ _ _))

theorem swap_perm : ∀ (h : List Nat) (i j : Nat) (p q : Nat),
    h[i]? = some p → h[j]? = some q → ((h.set i q).set j p).Perm h
  | [], _, _, _, _, hi, _ => by simp at hi
  | x :: t, 0, 0, p, q, hi, hj => by
    simp at hi hj
    subst hi
    simp
  | x :: t, 0, j + 1, p, q, hi, hj => by
    simp at hi hj
    subst hi
    simpa using set_cons_perm x t j q hj
  | x :: t, i + 1, 0, p, q, hi, hj => by
    simp at hi hj
    subst hj
    simpa using set_cons_perm x t i p hi
  | x :: t, i + 1, j + 1, p, q, hi, hj => by
    simp at hi hj
    simpa using swap_perm t i j p q hi hj

/-! ## Sifting up -/

theorem parent_cast (j : Nat) : Int.tdiv ((j : Int) - 1) 2 = (((j - 1) / 2 : Nat) : Int) := by
  cases j with
  | zero => rfl
  | succ n =>
    have h : ((n + 1 : Nat) : Int) - 1 = ((n : Nat) : Int) := by omega
    rw [h]
    rfl

theorem UpInv_done {s : HeapRef V} {n j : Nat} (h : UpInv s n j)
    (hj : 0 < j → slotTime s ((j - 1) / 2) ≤ slotTime s j) : HeapOrdN s n := by
  intro k hk hkn
  by_cases hkj : k = j
  · subst hkj
    exact hj hk
  · exact h.1 k hk hkn hkj

theorem UpInv_step {s s1 : HeapRef V} {n j : Nat} (h : UpInv s n j) (hj : 0 < j) (hjn : j < n)
    (hlt : slotTime s j < slotTime s ((j - 1) / 2))
    (hs : ∀ k, slotTime s1 k =
      slotTime s (if k = j then (j - 1) / 2 else if k = (j - 1) / 2 then j else k)) :
    UpInv s1 n ((j - 1) / 2) := by
  obtain ⟨h1, h2⟩ := h
  have hij : (j - 1) / 2 < j := by omega
  have e0 : ¬ ((j - 1) / 2 = j) := by omega
  constructor
  · intro k hk hkn hki
    rw [hs k, hs ((k - 1) / 2)]
    by_cases hkj : k = j
    · subst hkj
      have e1 : ¬ ((k - 1) / 2 = k) := by omega
      simp only [e1, if_true, if_false]
      omega
    · simp only [hkj, hki, if_false]
      by_cases hpj : (k - 1) / 2 = j
      · simp only [hpj, if_true]
        exact h2 k hk hkn hpj hj
      · by_cases hpi : (k - 1) / 2 = (j - 1) / 2
        · simp only [hpi, e0, if_true, if_false]
          have := h1 k hk hkn hkj
          rw [hpi] at this
          omega
        · simp only [hpj, hpi, if_false]
          exact h1 k hk hkn hkj
  · intro k hk hkn hpk hi
    rw [hs k, hs (((j - 1) / 2 - 1) / 2)]
    have e1 : ¬ (((j - 1) / 2 - 1) / 2 = j) := by omega
    have e2 : ¬ (((j - 1) / 2 - 1) / 2 = (j - 1) / 2) := by omega
    have e3 : ¬ (k = (j - 1) / 2) := by omega
    simp only [e1, e2, e3, if_false]
    have hpar := h1 ((j - 1) / 2) hi (by omega) (by omega)
    by_cases hkj : k = j
    · simp only [hkj, if_true]
      exact hpar
    · simp only [hkj, if_false]
      have := h1 k hk hkn hkj
      rw [hpk] at this
      omega

theorem upLoop_spec : ∀ (fuel : Nat) (s : HeapRef V) (j : Nat),
    IdxOk s → j < s.h.length → j < fuel →
    ∃ s', heap.upLoop fuel s j = some s' ∧ s'.h.Perm s.h ∧ data s'.mem = data s.mem ∧
      IdxOk s' ∧ (UpInv s s.h.length j → HeapOrd s')
  | 0, _, _, _, _, hf => by omega
  | fuel + 1, s, j, hok, hjl, hf => by
    simp only [heap.upLoop, parent_cast]
    by_cases hj0 : j = 0
    · subst hj0
      simp only [Nat.zero_sub, Nat.zero_div, if_true]
      exact ⟨s, rfl, List.Perm.refl _, rfl, hok, fun h => UpInv_done h (by omega)⟩
    · have hij : (j - 1) / 2 < j := by omega
      have hne : ¬ ((((j - 1) / 2 : Nat) : Int) = (j : Int)) := by omega
      simp only [hne, if_false]
      rw [Less_eq s j ((j - 1) / 2) hok hjl (by omega)]
      by_cases hlt : slotTime s j < slotTime s ((j - 1) / 2)
      · simp only [hlt, decide_True]
        have hi : s.h[(j - 1) / 2]? = some s.h[(j - 1) / 2] :=
          List.getElem?_eq_getElem (by omega)
        have hjj : s.h[j]? = some s.h[j] := List.getElem?_eq_getElem hjl
        obtain ⟨m', hsw, hd, hok'⟩ := Swap_spec s ((j - 1) / 2) j _ _ hok hi hjj
        rw [hsw]
        simp only
        obtain ⟨s', hr, hp, hd', hok'', hord⟩ :=
          upLoop_spec fuel ⟨m', (s.h.set ((j - 1) / 2) s.h[j]).set j s.h[(j - 1) / 2]⟩
            ((j - 1) / 2) hok' (by simp; omega) (by omega)
        refine ⟨s', hr, hp.trans (swap_perm _ _ _ _ _ hi hjj), hd'.trans hd, hok'', ?_⟩
        intro hinv
        have := hord (by
          simp only [List.length_set]
          exact UpInv_step hinv (by omega) hjl hlt (slotTime_swap s _ _ _ _ m' hi hjj hd))
        simpa [HeapOrd] using this
      · simp only [hlt, decide_False]
        exact ⟨s, rfl, List.Perm.refl _, rfl, hok, fun h => UpInv_done h (fun _ => by omega)⟩

theorem upLoop_noop (fuel : Nat) (s : HeapRef V) (j : Nat) (hok : IdxOk s)
    (hjl : j < s.h.length) (hj : 0 < j → slotTime s ((j - 1) / 2) ≤ slotTime s j) :
    heap.upLoop (fuel + 1) s j = some s := by
  simp only [heap.upLoop, parent_cast]
  by_cases hj0 : j = 0
  · subst hj0
    simp
  · have hne : ¬ ((((j - 1) / 2 : Nat) : Int) = (j : Int)) := by omega
    simp only [hne, if_false]
    rw [Less_eq s j ((j - 1) / 2) hok hjl (by omega)]
    have : ¬ slotTime s j < slotTime s ((j - 1) / 2) := by
      have := hj (by omega)
      omega
    simp [this]

/-! ## Sifting down -/

theorem DownInv_done {s : HeapRef V} {n i : Nat} (h : DownInv s n i)
    (hc : ∀ k, 0 < k → k < n → (k - 1) / 2 = i → slotTime s i ≤ slotTime s k) :
    HeapOrdN s n := by
  intro k hk hkn
  by_cases hp : (k - 1) / 2 = i
  · rw [hp]
    exact hc k hk hkn hp
  · exact h.1 k hk hkn hp

theorem DownInv_step {s s1 : HeapRef V} {n i j : Nat} (h : DownInv s n i)
    (hpar : (j - 1) / 2 = i) (hj : 0 < j) (hjn : j < n)
    (hmin : ∀ k, 0 < k → k < n → (k - 1) / 2 = i → slotTime s j ≤ slotTime s k)
    (hlt : slotTime s j < slotTime s i)
    (hs : ∀ k, slotTime s1 k = slotTime s (if k = j then i else if k = i then j else k)) :
    DownInv s1 n j := by
  obtain ⟨h1, h2⟩ := h
  have hij : i < j := by omega
  have e0 : ¬ (i = j) := by omega
  constructor
  · intro k hk hkn hpk
    rw [hs k, hs ((k - 1) / 2)]
    simp only [hpk, if_false]
    by_cases hkj : k = j
    · subst hkj
      simp only [hpar, if_true]
      omega
    · by_cases hki : k = i
      · subst hki
        have e1 : ¬ ((k - 1) / 2 = k) := by omega
        simp only [hkj, e1, if_true, if_false]
        exact h2 j hj hjn hpar hk
      · simp only [hkj, hki, if_false]
        by_cases hpi : (k - 1) / 2 = i
        · simp only [hpi, if_true]
          exact hmin k hk hkn hpi
        · simp only [hpi, if_false]
          exact h1 k hk hkn hpi
  · intro k hk hkn hpk _
    rw [hs k, hs ((j - 1) / 2)]
    have e1 : ¬ (k = j) := by omega
    have e2 : ¬ (k = i) := by omega
    simp only [hpar, e0, e1, e2, if_true, if_false]
    have := h1 k hk hkn (by omega)
    rw [hpk] at this
    exact this

theorem downLoop_spec : ∀ (fuel : Nat) (s : HeapRef V) (n i : Nat),
    IdxOk s → n ≤ s.h.length → n ≤ fuel + i →
    ∃ s' i', heap.downLoop (fuel + 1) s n i = some (s', (i' : Int)) ∧ i ≤ i' ∧
      (i' = i → s' = s) ∧ s'.h.Perm s.h ∧ data s'.mem = data s.mem ∧ IdxOk s' ∧
      (∀ k, n ≤ k → s'.h[k]? = s.h[k]?) ∧ (DownInv s n i → HeapOrdN s' n) := by
  intro fuel
  induction fuel with
  | zero =>
    intro s n i hok hn hf
    have hbrk : (2 * (i : Int) + 1 ≥ (n : Int) ∨ 2 * (i : Int) + 1 < 0) := by omega
    simp only [heap.downLoop, hbrk, if_true]
    refine ⟨s, i, rfl, le_refl _, fun _ => rfl, List.Perm.refl _, rfl, hok, fun _ _ => rfl, ?_⟩
    intro h
    exact DownInv_done h (fun k hk hkn hp => by omega)
  | succ fuel ih =>
    intro s n i hok hn hf
    by_cases hbrk : (2 * (i : Int) + 1 ≥ (n : Int) ∨ 2 * (i : Int) + 1 < 0)
    · simp only [heap.downLoop, hbrk, if_true]
      refine ⟨s, i, rfl, le_refl _, fun _ => rfl, List.Perm.refl _, rfl, hok,
        fun _ _ => rfl, ?_⟩
      intro h
      exact DownInv_done h (fun k hk hkn hp => by omega)
    · have hj1 : 2 * i + 1 < n := by omega
      have c1 : (2 * (i : Int) + 1) = ((2 * i + 1 : Nat) : Int) := by push_cast; ring
      have c2 : (2 * (i : Int) + 1 + 1) = ((2 * i + 2 : Nat) : Int) := by push_cast; ring
      rw [heap.downLoop]
      simp only [hbrk, if_false]
      -- the child that is picked
      obtain ⟨j, hpick, hjc, hmin⟩ : ∃ j : Nat,
          (if 2 * (i : Int) + 1 + 1 < (n : Int) then
            match Less s (2 * (i : Int) + 1 + 1) (2 * (i : Int) + 1) with
            | none => none
            | some true => some (2 * (i : Int) + 1 + 1)
            | some false => some (2 * (i : Int) + 1)
          else some (2 * (i : Int) + 1)) = some (j : Int) ∧
          (j = 2 * i + 1 ∨ (j = 2 * i + 2 ∧ j < n)) ∧
          (∀ k, 0 < k → k < n → (k - 1) / 2 = i → slotTime s j ≤ slotTime s k) := by
        by_cases h2 : 2 * (i : Int) + 1 + 1 < (n : Int)
        · simp only [h2, if_true]
          rw [c2, c1, Less_eq s _ _ hok (by omega) (by omega)]
          by_cases hlt : slotTime s (2 * i + 2) < slotTime s (2 * i + 1)
          · refine ⟨2 * i + 2, by simp [hlt], Or.inr ⟨rfl, by omega⟩, ?_⟩
            intro k hk hkn hp
            have : k = 2 * i + 1 ∨ k = 2 * i + 2 := by omega
            rcases this with h | h <;> subst h <;> omega
          · refine ⟨2 * i + 1, by simp [hlt], Or.inl rfl, ?_⟩
            intro k hk hkn hp
            have : k = 2 * i + 1 ∨ k = 2 * i + 2 := by omega
            rcases this with h | h <;> subst h <;> omega
        · simp only [h2, if_false]
          refine ⟨2 * i + 1, by rw [c1], Or.inl rfl, ?_⟩
          intro k hk hkn hp
          have : k = 2 * i + 1 := by omega
          subst this
          exact le_refl _
      rw [hpick]
      simp only
      have hjn : j < n := by omega
      have hpar : (j - 1) / 2 = i := by omega
      rw [Less_eq s j i hok (by omega) (by omega)]
      by_cases hlt : slotTime s j < slotTime s i
      · simp only [hlt, decide_True]
        have hi : s.h[i]? = some s.h[i] := List.getElem?_eq_getElem (by omega)
        have hjj : s.h[j]? = some s.h[j] := List.getElem?_eq_getElem (by omega)
        obtain ⟨m', hsw, hd, hok'⟩ := Swap_spec s i j _ _ hok hi hjj
        rw [hsw]
        simp only
        obtain ⟨s', i', hr, hle, _, hp, hd', hok'', hfr, hord⟩ :=
          ih ⟨m', (s.h.set i s.h[j]).set j s.h[i]⟩ n j hok' (by simp; omega) (by omega)
        refine ⟨s', i', hr, by omega, fun h => by omega,
          hp.trans (swap_perm _ _ _ _ _ hi hjj), hd'.trans hd, hok'', ?_, ?_⟩
        · intro k hk
          rw [hfr k hk]
          simp only
          rw [List.getElem?_set_ne (by omega), List.getElem?_set_ne (by omega)]
        · intro hinv
          exact hord (DownInv_step hinv hpar (by omega) hjn hmin hlt
            (slotTime_swap s _ _ _ _ m' hi hjj hd))
      · simp only [hlt, decide_False]
        refine ⟨s, i, rfl, le_refl _, fun _ => rfl, List.Perm.refl _, rfl, hok,
          fun _ _ => rfl, ?_⟩
        intro h
        exact DownInv_done h (fun k hk hkn hp => by
          have := hmin k hk hkn hp
          omega)

theorem downLoop_noop (fuel : Nat) (s : HeapRef V) (n i : Nat) (hok : IdxOk s)
    (hn : n ≤ s.h.length) (hord : HeapOrdN s n) :
    heap.downLoop (fuel + 1) s n i = some (s, (i : Int)) := by
  by_cases hbrk : (2 * (i : Int) + 1 ≥ (n : Int) ∨ 2 * (i : Int) + 1 < 0)
  · simp only [heap.downLoop, hbrk, if_true]
  · have hj1 : 2 * i + 1 < n := by omega
    have c1 : (2 * (i : Int) + 1) = ((2 * i + 1 : Nat) : Int) := by push_cast; ring
    have c2 : (2 * (i : Int) + 1 + 1) = ((2 * i + 2 : Nat) : Int) := by push_cast; ring
    have hc1 := hord (2 * i + 1) (by omega) hj1
    have e1 : (2 * i + 1 - 1) / 2 = i := by omega
    rw [e1] at hc1
    have hL1 : Less s ((2 * i + 1 : Nat) : Int) (i : Int) = some false := by
      rw [Less_eq s _ _ hok (by omega) (by omega)]
      simp
      omega
    rw [heap.downLoop]
    simp only [hbrk, if_false]
    by_cases h2 : 2 * (i : Int) + 1 + 1 < (n : Int)
    · have hc2 := hord (2 * i + 2) (by omega) (by omega)
      have e2 : (2 * i + 2 - 1) / 2 = i := by omega
      rw [e2] at hc2
      have hL2 : Less s ((2 * i + 2 : Nat) : Int) (i : Int) = some false := by
        rw [Less_eq s _ _ hok (by omega) (by omega)]
        simp
        omega
      simp only [h2, if_true]
      rw [c2, c1, Less_eq s _ _ hok (by omega) (by omega)]
      by_cases hlt : slotTime s (2 * i + 2) < slotTime s (2 * i + 1)
      · simp only [hlt, decide_True, hL2]
      · simp only [hlt, decide_False, hL1]
    · simp only [h2, if_false]
      rw [c1]
      simp only [hL1]

/-! ## `heap.Fix`, `heap.Push` and `heap.Pop` -/

theorem heap_Fix_noop (s : HeapRef V) (i : Nat) (hok : IdxOk s) (hord : HeapOrd s)
    (hi : i < s.h.length) : heap.Fix s (i : Int) = some s := by
  have hd : heap.down s (i : Int) (Len s) = some (s, false) := by
    unfold heap.down Len
    simp only [Int.toNat_ofNat]
    rw [downLoop_noop _ s s.h.length i hok (le_refl _) hord]
    simp
  have hu : heap.up s (i : Int) = some s := by
    unfold heap.up
    simp only [Int.toNat_ofNat]
    exact upLoop_noop _ s i hok hi (fun h => hord i h hi)
  simp [heap.Fix, hd, hu]

theorem slotTime_eq_of_getElem? (s s' : HeapRef V) (k k' : Nat)
    (hd : data s'.mem = data s.mem) (hk : s'.h[k]? = s.h[k']?) :
    slotTime s' k = slotTime s k' := by
  unfold slotTime
  rw [hk]
  cases s.h[k']? with
  | none => rfl
  | some p => exact timeOf_congr _ _ hd p

theorem heap_Push_spec (s : HeapRef V) (x : Nat) (e : entry V) (hok : IdxOk s)
    (hx : s.mem[x]? = some e) (hnew : x ∉ s.h) (hord : HeapOrd s) :
    ∃ s', heap.Push s x = some s' ∧ s'.h.Perm (s.h ++ [x]) ∧ data s'.mem = data s.mem ∧
      IdxOk s' ∧ HeapOrd s' ∧
      ((∀ k, k < s.h.length → slotTime s k ≤ e.lastAccessTime) → s'.h = s.h ++ [x]) := by
  have hxl : x < s.mem.length := getElem?_lt hx
  let s1 : HeapRef V :=
    ⟨s.mem.set x { e with heapIdx := (s.h.length : Int) }, s.h ++ [x]⟩
  have hp1 : lru.Push s x = some s1 := by simp [Push, hx, s1]
  have hd1 : data s1.mem = data s.mem := data_set_heapIdx _ _ _ _ hx
  have hok1 : IdxOk s1 := by
    intro k r hk
    simp only [s1, List.getElem?_append, List.getElem?_set] at hk ⊢
    by_cases hkl : k < s.h.length
    · simp only [hkl, if_true] at hk
      have hne : ¬ (x = r) := by
        intro h
        subst h
        exact hnew (List.getElem?_mem hk)
      simp only [hne, if_false]
      exact hok k r hk
    · simp only [hkl, if_false] at hk
      have hk0 : k - s.h.length = 0 := by
        by_contra hc
        have : ([x] : List Nat)[k - s.h.length]? = none := by
          apply List.getElem?_eq_none
          simp
          omega
        rw [this] at hk
        cases hk
      rw [hk0] at hk
      simp at hk
      subst hk
      refine ⟨{ e with heapIdx := (s.h.length : Int) }, by simp [hxl], ?_⟩
      simp
      omega
  have hlen1 : s1.h.length = s.h.length + 1 := by simp [s1]
  have hst : ∀ k, k < s.h.length → slotTime s1 k = slotTime s k := by
    intro k hk
    apply slotTime_eq_of_getElem? _ _ _ _ hd1
    simp [s1, List.getElem?_append, hk]
  have hstx : slotTime s1 s.h.length = e.lastAccessTime := by
    simp [slotTime, s1, timeOf, List.getElem?_append, hxl]
  have hup : heap.up s1 (Len s1 - 1) = heap.upLoop (s.h.length + 1) s1 (s.h.length : Int) := by
    unfold heap.up Len
    rw [hlen1]
    have : ((s.h.length + 1 : Nat) : Int) - 1 = (s.h.length : Int) := by omega
    rw [this]
    simp
  obtain ⟨s', hr, hp, hd, hok', hord'⟩ :=
    upLoop_spec (s.h.length + 1) s1 s.h.length hok1 (by omega) (by omega)
  refine ⟨s', ?_, hp, hd.trans hd1, hok', ?_, ?_⟩
  · simp [heap.Push, hp1, hup, hr]
  · apply hord'
    rw [hlen1]
    constructor
    · intro k hk hkn hne
      rw [hst k (by omega), hst ((k - 1) / 2) (by omega)]
      exact hord k hk (by omega)
    · intro k hk hkn hpar _
      omega
  · intro hall
    have := upLoop_noop s.h.length s1 s.h.length hok1 (by omega) (fun h => by
      rw [hstx, hst _ (by omega)]
      exact hall _ (by omega))
    rw [this] at hr
    cases hr
    rfl

theorem heap_Pop_spec (s : HeapRef V) (hok : IdxOk s) (hne : 0 < s.h.length)
    (hord : HeapOrd s) :
    ∃ s' x, heap.Pop s = some (s', x) ∧ s.h[0]? = some x ∧ (s'.h ++ [x]).Perm s.h ∧
      data s'.mem = data s.mem ∧ IdxOk s' ∧ HeapOrd s' := by
  obtain ⟨n, hn⟩ : ∃ n, s.h.length = n + 1 := ⟨s.h.length - 1, by omega⟩
  have h0 : s.h[0]? = some s.h[0] := List.getElem?_eq_getElem hne
  have hnn : s.h[n]? = some s.h[n] := List.getElem?_eq_getElem (by omega)
  have hLen : Len s - 1 = (n : Int) := by
    unfold Len
    omega
  obtain ⟨m1, hsw, hd1, hok1⟩ := Swap_spec s 0 n _ _ hok h0 hnn
  simp only [Nat.cast_zero] at hsw
  have hst1 := slotTime_swap s 0 n _ _ m1 h0 hnn hd1
  let s1 : HeapRef V := ⟨m1, (s.h.set 0 s.h[n]).set n s.h[0]⟩
  have hlen1 : s1.h.length = n + 1 := by simp [s1, hn]
  obtain ⟨s2, i', hdl, _, _, hp2, hd2, hok2, hfr2, hord2⟩ :=
    downLoop_spec n s1 n 0 hok1 (by omega) (by omega)
  have hlen2 : s2.h.length = n + 1 := by rw [hp2.length_eq, hlen1]
  have hlast : s2.h[n]? = some s.h[0] := by
    rw [hfr2 n (le_refl _)]
    simp [s1, List.getElem?_set, hn]
  have hdown : heap.down s1 0 (n : Int) = some (s2, decide (i' > 0)) := by
    unfold heap.down
    simp only [Int.toNat_ofNat]
    have := hdl
    simp only [Nat.cast_zero] at this
    rw [this]
  have hpop : lru.Pop s2 = some (⟨s2.mem, s2.h.take n⟩, s.h[0]) := by
    unfold Pop
    rw [hlen2]
    have : ((n + 1 : Nat) : Int) - 1 = (n : Int) := by omega
    simp [this, index_natCast, hlast]
  have htake : s2.h.take n ++ [s.h[0]] = s2.h := by
    apply List.ext_getElem?
    intro k
    simp only [List.getElem?_append, List.length_take, hlen2]
    by_cases hk : k < n
    · have : k < min n (n + 1) := by omega
      simp only [this, if_true]
      exact List.getElem?_take_of_lt hk
    · have : ¬ (k < min n (n + 1)) := by omega
      simp only [this, if_false]
      by_cases hkn : k = n
      · subst hkn
        simp [hlast]
      · rw [List.getElem?_eq_none (by simp; omega),
          List.getElem?_eq_none (by omega)]
  refine ⟨⟨s2.mem, s2.h.take n⟩, s.h[0], ?_, h0, ?_, hd2.trans hd1, ?_, ?_⟩
  · simp only [heap.Pop, hLen]
    rw [hsw]
    simp only [Option.bind_eq_bind, Option.some_bind]
    rw [hdown]
    simp only [Option.some_bind]
    exact hpop
  · simp only
    rw [htake]
    exact hp2.trans (swap_perm _ _ _ _ _ h0 hnn)
  · intro k r hk
    simp only at hk
    have hkn : k < n := by
      have := getElem?_lt hk
      simp at this
      omega
    rw [List.getElem?_take_of_lt hkn] at hk
    exact hok2 k r hk
  · have hH : HeapOrdN s2 n := by
      apply hord2
      constructor
      · intro k hk hkn hpar
        rw [hst1 k, hst1 ((k - 1) / 2)]
        have e1 : ¬ (k = n) := by omega
        have e2 : ¬ (k = 0) := by omega
        have e3 : ¬ ((k - 1) / 2 = n) := by omega
        simp only [e1, e2, e3, hpar, if_false]
        exact hord k hk (by omega)
      · intro k _ _ _ h
        omega
    intro k hk hkn
    simp only [List.length_take, hlen2] at hkn
    have hkn' : k < n := by omega
    have e1 : slotTime ⟨s2.mem, s2.h.take n⟩ k = slotTime s2 k :=
      slotTime_eq_of_getElem? _ _ _ _ rfl (List.getElem?_take_of_lt hkn')
    have e2 : slotTime ⟨s2.mem, s2.h.take n⟩ ((k - 1) / 2) = slotTime s2 ((k - 1) / 2) :=
      slotTime_eq_of_getElem? _ _ _ _ rfl (List.getElem?_take_of_lt (by omega))
    rw [e1, e2]
    exact hH k hk hkn'

/-! ## The table -/

theorem mapGet_eq_none_iff (m : List (Key × Nat)) (k : Key) :
    mapGet m k = none ↔ k ∉ m.map Prod.fst := by
  induction m with
  | nil => simp [mapGet]
  | cons a m ih =>
    obtain ⟨k', p⟩ := a
    by_cases h : k' = k
    · simp [mapGet, h]
    · have h' : ¬ (k = k') := fun e => h e.symm
      simp [mapGet, h, h', ih]

theorem mapGet_mapDelete (m : List (Key × Nat)) (k k' : Key) :
    mapGet (mapDelete m k) k' = if k' = k then none else mapGet m k' := by
  induction m with
  | nil => simp [mapGet, mapDelete]
  | cons a m ih =>
    obtain ⟨k0, p⟩ := a
    unfold mapDelete at ih ⊢
    by_cases h0 : k0 = k
    · subst h0
      by_cases h1 : k' = k0
      · subst h1
        simpa [List.filter, mapGet] using ih
      · have h1' : ¬ (k0 = k') := fun e => h1 e.symm
        simpa [List.filter, mapGet, h1, h1'] using ih
    · by_cases h1 : k' = k
      · subst h1
        simp [List.filter, mapGet, h0] at ih ⊢
        exact ih
      · by_cases h2 : k0 = k'
        · simp [List.filter, mapGet, h0, h1, h2]
        · simp [List.filter, mapGet, h0, h1, h2] at ih ⊢
          exact ih

theorem mapGet_mapSet (m : List (Key × Nat)) (k k' : Key) (p : Nat) :
    mapGet (mapSet m k p) k' = if k' = k then some p else mapGet m k' := by
  unfold mapSet
  by_cases h : k' = k
  · subst h
    simp [mapGet]
  · have h' : ¬ (k = k') := fun e => h e.symm
    simp [mapGet, h, h', mapGet_mapDelete]

theorem mapDelete_of_none (m : List (Key × Nat)) (k : Key) (h : mapGet m k = none) :
    mapDelete m k = m := by
  rw [mapGet_eq_none_iff] at h
  unfold mapDelete
  rw [List.filter_eq_self]
  intro a ha
  simp only [decide_eq_true_eq]
  intro e
  exact h (List.mem_map.2 ⟨a, ha, e⟩)

theorem mapDelete_keys_nodup (m : List (Key × Nat)) (k : Key)
    (h : (m.map Prod.fst).Nodup) : ((mapDelete m k).map Prod.fst).Nodup := by
  unfold mapDelete
  exact h.sublist ((List.filter_sublist m).map Prod.fst)

theorem mapSet_keys_nodup (m : List (Key × Nat)) (k : Key) (p : Nat)
    (h : (m.map Prod.fst).Nodup) : ((mapSet m k p).map Prod.fst).Nodup := by
  unfold mapSet
  simp only [List.map_cons, List.nodup_cons]
  refine ⟨?_, mapDelete_keys_nodup m k h⟩
  rw [← mapGet_eq_none_iff, mapGet_mapDelete]
  simp

theorem mapDelete_cons (m : List (Key × Nat)) (k k0 : Key) (q : Nat) :
    mapDelete ((k0, q) :: m) k = if k0 = k then mapDelete m k else (k0, q) :: mapDelete m k := by
  unfold mapDelete
  by_cases h : k0 = k
  · simp [List.filter, h]
  · simp [List.filter, h]

theorem mapDelete_length (m : List (Key × Nat)) (k : Key) (p : Nat)
    (hn : (m.map Prod.fst).Nodup) (h : mapGet m k = some p) :
    (mapDelete m k).length + 1 = m.length := by
  induction m with
  | nil => simp [mapGet] at h
  | cons a m ih =>
    obtain ⟨k0, q⟩ := a
    simp only [List.map_cons, List.nodup_cons] at hn
    rw [mapDelete_cons]
    by_cases h0 : k0 = k
    · subst h0
      have hnone : mapGet m k0 = none := (mapGet_eq_none_iff m k0).2 hn.1
      simp [mapDelete_of_none m k0 hnone]
    · simp only [mapGet, h0, if_false] at h
      have := ih hn.2 h
      simp only [h0, if_false, List.length_cons]
      omega

/-! ## `Get` and `Put` on a well-formed cache -/

theorem keyOf_congr (m m' : Mem V) (h : data m' = data m) (p : Nat) :
    keyOf m' p = keyOf m p := by
  have h1 : (data m')[p]? = (data m)[p]? := by rw [h]
  simp only [data, List.getElem?_map] at h1
  unfold keyOf
  cases h2 : m'[p]? <;> cases h3 : m[p]? <;> simp_all

theorem Wf_slot {l : LRU V} (hw : Wf l) {k : Key} {p : Nat} (h : mapGet l.entries k = some p) :
    ∃ (i : Nat) (e : entry V), l.heap[i]? = some p ∧ l.mem[p]? = some e ∧
      e.heapIdx = (i : Int) ∧ e.key = k := by
  obtain ⟨hp, hk⟩ := (hw.corr k p).1 h
  obtain ⟨i, hi⟩ := List.mem_iff_getElem?.1 hp
  obtain ⟨e, he, hei⟩ := hw.idx i p hi
  refine ⟨i, e, hi, he, hei, ?_⟩
  simpa [keyOf, he] using hk

theorem Get_miss (l : LRU V) (k : Key) (t : Int) (h : mapGet l.entries k = none) :
    Get l k t = some (l, (none, false)) := by
  simp [Get, h]

theorem Get_hit (l : LRU V) (k : Key) (t : Int) (p : Nat) (hw : Wf l)
    (h : mapGet l.entries k = some p) :
    ∃ e, l.mem[p]? = some e ∧ e.key = k ∧ Get l k t = some (l, (e.val, true)) := by
  obtain ⟨i, e, hi, he, hei, hek⟩ := Wf_slot hw h
  refine ⟨e, he, hek, ?_⟩
  have hfix : heap.Fix ⟨l.mem, l.heap⟩ e.heapIdx = some ⟨l.mem, l.heap⟩ := by
    rw [hei]
    exact heap_Fix_noop _ i hw.idx hw.ord (getElem?_lt hi)
  unfold Get
  simp only [h, he, Option.bind_eq_bind, Option.some_bind, hfix]
  by_cases ht : e.lastAccessTime ≠ t
  · simp [ht, he]
  · simp [ht, he]

theorem Wf_setVal {l : LRU V} (hw : Wf l) {p : Nat} {e : entry V} (he : l.mem[p]? = some e)
    (v : Option V) : Wf { l with mem := l.mem.set p { e with val := v } } := by
  have hpl : p < l.mem.length := getElem?_lt he
  have htime : ∀ r, timeOf (l.mem.set p { e with val := v }) r = timeOf l.mem r := by
    intro r
    unfold timeOf
    by_cases hr : p = r
    · subst hr
      simp [List.getElem?_set, hpl, he]
    · simp [List.getElem?_set, hr]
  have hkey : ∀ r, keyOf (l.mem.set p { e with val := v }) r = keyOf l.mem r := by
    intro r
    unfold keyOf
    by_cases hr : p = r
    · subst hr
      simp [List.getElem?_set, hpl, he]
    · simp [List.getElem?_set, hr]
  constructor
  · intro i r hi
    obtain ⟨e', he', hei⟩ := hw.idx i r hi
    by_cases hr : p = r
    · subst hr
      rw [he] at he'
      cases he'
      exact ⟨{ e with val := v }, by simp [List.getElem?_set, hpl], hei⟩
    · exact ⟨e', by simpa [List.getElem?_set, hr] using he', hei⟩
  · intro k hk hkn
    have := hw.ord k hk hkn
    simpa [slotTime, htime] using this
  · exact hw.nodup
  · exact hw.len
  · intro k r
    simp only [hkey]
    exact hw.corr k r

theorem Put_hit (l : LRU V) (k : Key) (v : Option V) (t : Int) (p : Nat) (hw : Wf l)
    (h : mapGet l.entries k = some p) :
    ∃ e, l.mem[p]? = some e ∧ e.key = k ∧
      Put l k v t = some { l with mem := l.mem.set p { e with val := v } } := by
  obtain ⟨i, e, hi, he, hei, hek⟩ := Wf_slot hw h
  refine ⟨e, he, hek, ?_⟩
  have hw' := Wf_setVal hw he v
  have hfix : heap.Fix ⟨l.mem.set p { e with val := v }, l.heap⟩ e.heapIdx =
      some ⟨l.mem.set p { e with val := v }, l.heap⟩ := by
    have := heap_Fix_noop ⟨l.mem.set p { e with val := v }, l.heap⟩ i hw'.idx hw'.ord
      (getElem?_lt hi)
    rw [← hei] at this
    exact this
  unfold Put
  simp only [h, he, Option.bind_eq_bind, Option.some_bind, hfix]
  by_cases ht : e.lastAccessTime ≠ t
  · simp [ht]
  · simp [ht]

theorem Put_miss_eq (l : LRU V) (k : Key) (v : Option V) (t : Int)
    (h : mapGet l.entries k = none) :
    Put l k v t =
      (if (l.entries.length : Int) ≥ l.capacity then Put.evict l else some l).bind
        (fun l1 => Put.insert l1 k v t) := by
  unfold Put
  simp only [h]
  by_cases hc : (l.entries.length : Int) ≥ l.capacity
  · simp only [hc, if_true, Put.evict, Put.insert, Option.bind_eq_bind, Option.bind_assoc]
  · simp only [hc, if_false, Put.insert, Option.bind_eq_bind, Option.some_bind]

theorem Wf_ptr_lt {l : LRU V} (hw : Wf l) {p : Nat} (hp : p ∈ l.heap) : p < l.mem.length := by
  obtain ⟨i, hi⟩ := List.mem_iff_getElem?.1 hp
  obtain ⟨e, he, _⟩ := hw.idx i p hi
  exact getElem?_lt he

theorem Put_insert_spec (l1 : LRU V) (k : Key) (v : Option V) (t : Int) (hw : Wf l1)
    (h : mapGet l1.entries k = none) :
    ∃ l', Put.insert l1 k v t = some l' ∧ Wf l' ∧ l'.capacity = l1.capacity ∧
      l'.entries = mapSet l1.entries k l1.mem.length ∧
      l'.entries.length = l1.entries.length + 1 ∧
      data l'.mem = data l1.mem ++ [(t, k, v)] ∧
      l'.heap.Perm (l1.heap ++ [l1.mem.length]) ∧
      ((∀ i, i < l1.heap.length → slotTime ⟨l1.mem, l1.heap⟩ i ≤ t) →
        l'.heap = l1.heap ++ [l1.mem.length]) := by
  let e : entry V := { heapIdx := 0, lastAccessTime := t, key := k, val := v }
  have hget : ∀ r, r < l1.mem.length → (l1.mem ++ [e])[r]? = l1.mem[r]? := by
    intro r hr
    exact List.getElem?_append_left hr
  have hok0 : IdxOk ⟨l1.mem ++ [e], l1.heap⟩ := by
    intro i r hi
    obtain ⟨e', he', hei⟩ := hw.idx i r hi
    exact ⟨e', by rw [hget r (getElem?_lt he')]; exact he', hei⟩
  have hx : (l1.mem ++ [e])[l1.mem.length]? = some e := by simp
  have hnew : l1.mem.length ∉ l1.heap := by
    intro hp
    have := Wf_ptr_lt hw hp
    omega
  have hst : ∀ i, slotTime ⟨l1.mem ++ [e], l1.heap⟩ i = slotTime ⟨l1.mem, l1.heap⟩ i := by
    intro i
    unfold slotTime
    simp only
    cases hi : l1.heap[i]? with
    | none => rfl
    | some r =>
      simp only [timeOf]
      rw [hget r (Wf_ptr_lt hw (List.getElem?_mem hi))]
  have hord0 : HeapOrd ⟨l1.mem ++ [e], l1.heap⟩ := by
    intro j hj hjn
    rw [hst, hst]
    exact hw.ord j hj hjn
  obtain ⟨s', hpush, hperm, hd, hok', hord', hnoop⟩ :=
    heap_Push_spec ⟨l1.mem ++ [e], l1.heap⟩ l1.mem.length e hok0 hx hnew hord0
  have hlen : (mapSet l1.entries k l1.mem.length).length = l1.entries.length + 1 := by
    simp [mapSet, mapDelete_of_none _ _ h]
  have hkey : ∀ q, keyOf s'.mem q =
      if q < l1.mem.length then keyOf l1.mem q
      else if q = l1.mem.length then some k else none := by
    intro q
    rw [keyOf_congr _ _ hd q]
    simp only [keyOf]
    by_cases hq : q < l1.mem.length
    · simp only [hq, if_true]
      rw [hget q hq]
    · simp only [hq, if_false]
      by_cases hq2 : q = l1.mem.length
      · subst hq2
        simp [e]
      · simp only [hq2, if_false]
        rw [List.getElem?_eq_none (by simp; omega)]
        rfl
  refine ⟨{ l1 with mem := s'.mem, heap := s'.h,
                    entries := mapSet l1.entries k l1.mem.length }, ?_, ?_, rfl, rfl, hlen,
    ?_, hperm, ?_⟩
  · simp only [Put.insert, Option.bind_eq_bind]
    rw [hpush]
    rfl
  · constructor
    · exact hok'
    · exact hord'
    · exact mapSet_keys_nodup _ _ _ hw.nodup
    · simp only [hlen, hperm.length_eq, List.length_append, List.length_singleton, hw.len]
    · intro k' q
      simp only [mapGet_mapSet, hperm.mem_iff, List.mem_append, List.mem_singleton, hkey]
      by_cases hk : k' = k
      · subst hk
        simp only [if_true]
        constructor
        · intro hq
          cases hq
          simp
        · rintro ⟨hq | hq, hkq⟩
          · have hql := Wf_ptr_lt hw hq
            simp only [hql, if_true] at hkq
            have := (hw.corr k' q).2 ⟨hq, hkq⟩
            rw [h] at this
            cases this
          · rw [hq]
      · simp only [hk, if_false]
        rw [hw.corr k' q]
        constructor
        · rintro ⟨hq, hkq⟩
          have hql := Wf_ptr_lt hw hq
          exact ⟨Or.inl hq, by simpa [hql] using hkq⟩
        · rintro ⟨hq | hq, hkq⟩
          · have hql := Wf_ptr_lt hw hq
            exact ⟨hq, by simpa [hql] using hkq⟩
          · subst hq
            simp at hkq
            exact absurd hkq.symm hk
  · simp only
    rw [hd]
    simp [data, e]
  · intro hall
    apply hnoop
    intro i hi
    simp only at hi
    rw [hst]
    exact hall i hi

theorem Put_evict_spec (l : LRU V) (hw : Wf l) (hne : 0 < l.heap.length) :
    ∃ l1 x ex, Put.evict l = some l1 ∧ Wf l1 ∧ l1.capacity = l.capacity ∧
      l.heap[0]? = some x ∧ l.mem[x]? = some ex ∧ mapGet l.entries ex.key = some x ∧
      l1.entries = mapDelete l.entries ex.key ∧ l1.entries.length + 1 = l.entries.length ∧
      data l1.mem = data l.mem ∧ (l1.heap ++ [x]).Perm l.heap := by
  obtain ⟨s', x, hpop, hx0, hperm, hd, hok', hord'⟩ :=
    heap_Pop_spec ⟨l.mem, l.heap⟩ hw.idx hne hw.ord
  simp only at hx0 hperm hd
  obtain ⟨ex, hex, _⟩ := hw.idx 0 x hx0
  simp only at hex
  have hxk : keyOf l.mem x = some ex.key := by simp [keyOf, hex]
  have hxk' : keyOf s'.mem x = some ex.key := by rw [keyOf_congr _ _ hd x]; exact hxk
  obtain ⟨old, hold, holdk⟩ : ∃ old, s'.mem[x]? = some old ∧ old.key = ex.key := by
    unfold keyOf at hxk'
    cases ho : s'.mem[x]? with
    | none => simp [ho] at hxk'
    | some old => exact ⟨old, rfl, by simpa [ho] using hxk'⟩
  have hmap : mapGet l.entries ex.key = some x :=
    (hw.corr ex.key x).2 ⟨List.getElem?_mem hx0, hxk⟩
  have hnd : (s'.h ++ [x]).Nodup := hperm.nodup_iff.2 (IdxOk_nodup hw.idx)
  have hxnot : x ∉ s'.h := by
    intro hmem
    have := List.nodup_append.1 hnd
    exact this.2.2 hmem (List.mem_singleton.2 rfl)
  have hlen := mapDelete_length _ _ _ hw.nodup hmap
  refine ⟨{ l with mem := s'.mem, heap := s'.h, entries := mapDelete l.entries ex.key },
    x, ex, ?_, ?_, rfl, hx0, hex, hmap, rfl, hlen, hd, hperm⟩
  · simp only [Put.evict, Option.bind_eq_bind]
    rw [hpop]
    simp only [Option.some_bind, hold, holdk]
    rfl
  · constructor
    · exact hok'
    · exact hord'
    · exact mapDelete_keys_nodup _ _ hw.nodup
    · have h1 := hperm.length_eq
      simp only [List.length_append, List.length_singleton] at h1
      have h2 := hw.len
      simp only
      omega
    · intro k' q
      simp only [mapGet_mapDelete, keyOf_congr _ _ hd]
      have hmem : q ∈ l.heap ↔ q ∈ s'.h ∨ q = x := by
        rw [← hperm.mem_iff]
        simp
      by_cases hk : k' = ex.key
      · subst hk
        simp only [if_true]
        constructor
        · intro hc
          cases hc
        · rintro ⟨hq, hkq⟩
          have h1 := (hw.corr ex.key q).2 ⟨hmem.2 (Or.inl hq), hkq⟩
          rw [hmap] at h1
          cases h1
          exact absurd hq hxnot
      · simp only [hk, if_false]
        rw [hw.corr k' q, hmem]
        constructor
        · rintro ⟨hq | hq, hkq⟩
          · exact ⟨hq, hkq⟩
          · subst hq
            rw [hxk] at hkq
            cases hkq
            exact absurd rfl hk
        · rintro ⟨hq, hkq⟩
          exact ⟨Or.inl hq, hkq⟩

/-! ## The contents of the cache, seen through `held` -/

theorem data_getElem? (m : Mem V) (p : Nat) :
    (data m)[p]? = (m[p]?).map (fun e => (e.lastAccessTime, e.key, e.val)) := by
  simp [data]

theorem held_of_mapGet {l : LRU V} {k : Key} {p : Nat} {e : entry V}
    (h : mapGet l.entries k = some p) (he : l.mem[p]? = some e) :
    held l k = some (e.lastAccessTime, e.val) := by
  simp [held, h, data_getElem?, he]

theorem held_eq_none_iff {l : LRU V} (hw : Wf l) (k : Key) :
    held l k = none ↔ mapGet l.entries k = none := by
  constructor
  · intro h
    cases hm : mapGet l.entries k with
    | none => rfl
    | some p =>
      obtain ⟨i, e, _, he, _, _⟩ := Wf_slot hw hm
      rw [held_of_mapGet hm he] at h
      cases h
  · intro h
    simp [held, h]

theorem Get_eq {l : LRU V} (hw : Wf l) (k : Key) (t : Int) :
    Get l k t = some (l, answer (held l k)) := by
  cases hm : mapGet l.entries k with
  | none =>
    rw [Get_miss l k t hm, (held_eq_none_iff hw k).2 hm]
    rfl
  | some p =>
    obtain ⟨e, he, _, hg⟩ := Get_hit l k t p hw hm
    rw [hg, held_of_mapGet hm he]
    rfl

theorem held_hit {l : LRU V} (hw : Wf l) {k : Key} {p : Nat} {e : entry V}
    (h : mapGet l.entries k = some p) (he : l.mem[p]? = some e) (v : Option V) (k' : Key) :
    held { l with mem := l.mem.set p { e with val := v } } k' =
      if k' = k then some (e.lastAccessTime, v) else held l k' := by
  have hpl : p < l.mem.length := getElem?_lt he
  by_cases hk : k' = k
  · subst hk
    simp [held, h, data_getElem?, List.getElem?_set, hpl]
  · simp only [hk, if_false, held]
    cases hm : mapGet l.entries k' with
    | none => rfl
    | some q =>
      have hne : p ≠ q := by
        intro hpq
        subst hpq
        have h1 := ((hw.corr k p).1 h).2
        have h2 := ((hw.corr k' p).1 hm).2
        rw [h1] at h2
        cases h2
        exact hk rfl
      simp [data_getElem?, List.getElem?_set, hne]

theorem held_insert {l1 l' : LRU V} (hw : Wf l1) {k : Key} {v : Option V} {t : Int}
    (he : l'.entries = mapSet l1.entries k l1.mem.length)
    (hd : data l'.mem = data l1.mem ++ [(t, k, v)]) (k' : Key) :
    held l' k' = if k' = k then some (t, v) else held l1 k' := by
  unfold held
  rw [he, hd, mapGet_mapSet]
  by_cases hk : k' = k
  · simp [hk, ← data_length]
  · simp only [hk, if_false]
    cases hm : mapGet l1.entries k' with
    | none => rfl
    | some q =>
      have hq : q < (data l1.mem).length := by
        rw [data_length]
        exact Wf_ptr_lt hw ((hw.corr k' q).1 hm).1
      simp [List.getElem?_append_left hq]

theorem held_evict {l l1 : LRU V} {kv : Key}
    (he : l1.entries = mapDelete l.entries kv) (hd : data l1.mem = data l.mem) (k' : Key) :
    held l1 k' = if k' = kv then none else held l k' := by
  unfold held
  rw [he, hd, mapGet_mapDelete]
  by_cases hk : k' = kv
  · simp [hk]
  · simp [hk]

/-! ## The three branches of `Put` on a state that satisfies the invariant -/

theorem HeapOrd_root_le {s : HeapRef V} (h : HeapOrd s) :
    ∀ i, i < s.h.length → slotTime s 0 ≤ slotTime s i := by
  intro i
  induction i using Nat.strong_induction_on with
  | _ i ih =>
    intro hi
    by_cases h0 : i = 0
    · subst h0
      exact le_refl _
    · have h1 := ih ((i - 1) / 2) (by omega) (by omega)
      have h2 := h i (by omega) hi
      omega

theorem Wf_held_time_ge {l : LRU V} (hw : Wf l) {x : Nat} {ex : entry V}
    (hx0 : l.heap[0]? = some x) (hex : l.mem[x]? = some ex)
    {k : Key} {d : Int × Option V} (hd : held l k = some d) : ex.lastAccessTime ≤ d.1 := by
  cases hm : mapGet l.entries k with
  | none =>
    rw [(held_eq_none_iff hw k).2 hm] at hd
    cases hd
  | some q =>
    obtain ⟨i, e, hi, he, _, _⟩ := Wf_slot hw hm
    rw [held_of_mapGet hm he] at hd
    cases hd
    have h1 := HeapOrd_root_le hw.ord i (getElem?_lt hi)
    simpa [slotTime, timeOf, hx0, hex, hi, he] using h1

theorem Put_hit_spec (l : LRU V) (k : Key) (v : Option V) (t : Int) (hi : Inv l)
    (d : Int × Option V) (h : held l k = some d) :
    ∃ l', Put l k v t = some l' ∧ Inv l' ∧ l'.capacity = l.capacity ∧
      l'.entries = l.entries ∧ l'.heap = l.heap ∧
      (∀ k', held l' k' = if k' = k then some (d.1, v) else held l k') := by
  cases hm : mapGet l.entries k with
  | none =>
    rw [(held_eq_none_iff hi.wf k).2 hm] at h
    cases h
  | some p =>
    obtain ⟨e, he, _, hput⟩ := Put_hit l k v t p hi.wf hm
    rw [held_of_mapGet hm he] at h
    cases h
    exact ⟨_, hput, ⟨Wf_setVal hi.wf he v, hi.pos, hi.cap⟩, rfl, rfl, rfl,
      held_hit hi.wf hm he v⟩

theorem Put_room_spec (l : LRU V) (k : Key) (v : Option V) (t : Int) (hi : Inv l)
    (h : held l k = none) (hroom : (l.entries.length : Int) < l.capacity) :
    ∃ l', Put l k v t = some l' ∧ Inv l' ∧ l'.capacity = l.capacity ∧
      l'.entries.length = l.entries.length + 1 ∧
      (∀ k', held l' k' = if k' = k then some (t, v) else held l k') ∧
      data l'.mem = data l.mem ++ [(t, k, v)] ∧
      l'.heap.Perm (l.heap ++ [l.mem.length]) ∧
      ((∀ i, i < l.heap.length → slotTime ⟨l.mem, l.heap⟩ i ≤ t) →
        l'.heap = l.heap ++ [l.mem.length]) := by
  have hm := (held_eq_none_iff hi.wf k).1 h
  obtain ⟨l', hins, hw', hcap, hent, hlen, hd, hperm, hnoop⟩ :=
    Put_insert_spec l k v t hi.wf hm
  have hc : ¬ ((l.entries.length : Int) ≥ l.capacity) := by omega
  refine ⟨l', ?_, ⟨hw', ?_, ?_⟩, hcap, hlen, held_insert hi.wf hent hd, hd, hperm, hnoop⟩
  · rw [Put_miss_eq l k v t hm]
    simp only [hc, if_false, Option.some_bind]
    exact hins
  · rw [hcap]
    exact hi.pos
  · rw [hcap, hlen]
    push_cast
    omega

theorem Put_full_spec (l : LRU V) (k : Key) (v : Option V) (t : Int) (hi : Inv l)
    (h : held l k = none) (hfull : (l.entries.length : Int) ≥ l.capacity) :
    ∃ l' x ex, Put l k v t = some l' ∧ Inv l' ∧ l'.capacity = l.capacity ∧
      l.heap[0]? = some x ∧ l.mem[x]? = some ex ∧ mapGet l.entries ex.key = some x ∧
      l'.entries.length = l.entries.length ∧
      (∀ k', held l' k' =
        if k' = k then some (t, v) else if k' = ex.key then none else held l k') ∧
      (∀ k' d, held l k' = some d → ex.lastAccessTime ≤ d.1) ∧
      (l'.heap ++ [x]).Perm (l.heap ++ [l.mem.length]) := by
  have hm := (held_eq_none_iff hi.wf k).1 h
  have hne : 0 < l.heap.length := by
    have h1 := hi.pos
    have h2 := hi.wf.len
    omega
  obtain ⟨l1, x, ex, hev, hw1, hcap1, hx0, hex, hmx, hent1, hlen1, hd1, hperm1⟩ :=
    Put_evict_spec l hi.wf hne
  have hm1 : mapGet l1.entries k = none := by
    rw [hent1, mapGet_mapDelete, hm]
    simp
  obtain ⟨l', hins, hw', hcap, hent, hlen, hd, hperm, _⟩ :=
    Put_insert_spec l1 k v t hw1 hm1
  have hmemlen : l1.mem.length = l.mem.length := by
    rw [← data_length, hd1, data_length]
  refine ⟨l', x, ex, ?_, ⟨hw', ?_, ?_⟩, hcap.trans hcap1, hx0, hex, hmx, by omega, ?_, ?_, ?_⟩
  · rw [Put_miss_eq l k v t hm]
    simp only [hfull, if_true, hev, Option.some_bind]
    exact hins
  · rw [hcap, hcap1]
    exact hi.pos
  · rw [hcap, hcap1, hlen]
    have := hi.cap
    have : l1.entries.length + 1 = l.entries.length := hlen1
    omega
  · intro k'
    rw [held_insert hw1 hent hd k', held_evict hent1 hd1 k']
  · intro k' d hd'
    exact Wf_held_time_ge hi.wf hx0 hex hd'
  · rw [← hmemlen]
    have h1 : (l'.heap ++ [x]).Perm ((l1.heap ++ [l1.mem.length]) ++ [x]) :=
      hperm.append_right [x]
    have h2 : ((l1.heap ++ [l1.mem.length]) ++ [x]).Perm ((l1.heap ++ [x]) ++ [l1.mem.length]) := by
      simp only [List.append_assoc]
      exact List.Perm.append_left _ (List.Perm.swap _ _ _)
    exact h1.trans (h2.trans (hperm1.append_right _))

theorem Inv_NewLRU (C : Int) (hC : 1 ≤ C) : Inv (NewLRU C : LRU V) := by
  refine ⟨⟨?_, ?_, ?_, rfl, ?_⟩, hC, ?_⟩
  · intro i p hp
    simp [NewLRU] at hp
  · intro k _ hk
    simp [NewLRU] at hk
  · simp [NewLRU]
  · intro k p
    simp [NewLRU, mapGet]
  · simp [NewLRU]
    omega

theorem Put_inv (l : LRU V) (k : Key) (v : Option V) (t : Int) (hi : Inv l) :
    ∃ l', Put l k v t = some l' ∧ Inv l' ∧ l'.capacity = l.capacity := by
  cases h : held l k with
  | some d =>
    obtain ⟨l', hp, hi', hc, _⟩ := Put_hit_spec l k v t hi d h
    exact ⟨l', hp, hi', hc⟩
  | none =>
    by_cases hroom : (l.entries.length : Int) < l.capacity
    · obtain ⟨l', hp, hi', hc, _⟩ := Put_room_spec l k v t hi h hroom
      exact ⟨l', hp, hi', hc⟩
    · obtain ⟨l', _, _, hp, hi', hc, _⟩ := Put_full_spec l k v t hi h (by omega)
      exact ⟨l', hp, hi', hc⟩

theorem step_inv (l : LRU V) (o : Op V) (hi : Inv l) :
    ∃ l', step l o = some l' ∧ Inv l' ∧ l'.capacity = l.capacity := by
  cases o with
  | put k v t => exact Put_inv l k v t hi
  | get k t =>
    refine ⟨l, ?_, hi, rfl⟩
    simp [step, Get_eq hi.wf]

theorem run_inv : ∀ (ops : List (Op V)) (l : LRU V), Inv l →
    ∃ l', run l ops = some l' ∧ Inv l' ∧ l'.capacity = l.capacity
  | [], l, hi => ⟨l, rfl, hi, rfl⟩
  | o :: ops, l, hi => by
    obtain ⟨l1, h1, hi1, hc1⟩ := step_inv l o hi
    obtain ⟨l2, h2, hi2, hc2⟩ := run_inv ops l1 hi1
    exact ⟨l2, by simp [run, h1, h2], hi2, hc2.trans hc1⟩

theorem Reachable_inv {C : Int} (hC : 1 ≤ C) {l : LRU V} (h : Reachable C l) :
    Inv l ∧ l.capacity = C := by
  induction h with
  | init => exact ⟨Inv_NewLRU C hC, rfl⟩
  | put l l' k v t _ hp ih =>
    obtain ⟨l'', hp', hi', hc⟩ := Put_inv l k v t ih.1
    rw [hp] at hp'
    cases hp'
    exact ⟨hi', hc.trans ih.2⟩
  | get l l' k t r _ hg ih =>
    rw [Get_eq ih.1.wf] at hg
    cases hg
    exact ih

/-! ## Runs of `Put` on fresh keys -/

theorem timeOf_eq_data (m : Mem V) (p : Nat) :
    timeOf m p = (((data m)[p]?).map (fun d => d.1)).getD 0 := by
  unfold timeOf
  rw [data_getElem?]
  cases m[p]? <;> rfl

theorem keyOf_eq_data (m : Mem V) (p : Nat) :
    keyOf m p = ((data m)[p]?).map (fun d => d.2.1) := by
  unfold keyOf
  rw [data_getElem?]
  cases m[p]? <;> rfl

theorem run_append (l : LRU V) (os os' : List (Op V)) :
    run l (os ++ os') = (run l os).bind (fun l1 => run l1 os') := by
  induction os generalizing l with
  | nil => rfl
  | cons o os ih =>
    simp only [List.cons_append, run]
    cases step l o with
    | none => rfl
    | some l1 => simpa using ih l1

theorem run_puts_room : ∀ (ps : List (Key × Option V × Int)) (l : LRU V), Inv l →
    (l.entries.length : Int) + (ps.length : Int) ≤ l.capacity →
    (ps.map (fun p => p.1)).Nodup → (∀ p ∈ ps, held l p.1 = none) →
    (ps.map (fun p => p.2.2)).Pairwise (fun a b => a ≤ b) →
    (∀ i, i < l.heap.length → ∀ p ∈ ps, slotTime ⟨l.mem, l.heap⟩ i ≤ p.2.2) →
    ∃ l' suffix ext, run l (putOps ps) = some l' ∧ Inv l' ∧ l'.capacity = l.capacity ∧
      l'.entries.length = l.entries.length + ps.length ∧
      l'.heap = l.heap ++ suffix ∧ data l'.mem = data l.mem ++ ext ∧
      (∀ k, k ∉ ps.map (fun p => p.1) → held l' k = held l k) ∧
      (∀ p ∈ ps, held l' p.1 = some (p.2.2, p.2.1))
  | [], l, hi, _, _, _, _, _ =>
    ⟨l, [], [], rfl, hi, rfl, rfl, by simp, by simp, fun _ _ => rfl, by simp⟩
  | (k, v, t) :: ps, l, hi, hcap, hnd, hnew, hmono, hbound => by
    simp only [List.map_cons, List.nodup_cons, List.pairwise_cons, List.length_cons] at hnd hmono hcap
    obtain ⟨l1, hput, hi1, hcap1, hlen1, hheld1, hd1, _, hnoop⟩ :=
      Put_room_spec l k v t hi (hnew _ (List.mem_cons_self _ _)) (by push_cast at hcap; omega)
    have hheap1 : l1.heap = l.heap ++ [l.mem.length] :=
      hnoop (fun i hil => hbound i hil _ (List.mem_cons_self _ _))
    have hb1 : ∀ i, i < l1.heap.length → ∀ p ∈ ps, slotTime ⟨l1.mem, l1.heap⟩ i ≤ p.2.2 := by
      intro i hil p hp
      rw [hheap1] at hil
      simp only [List.length_append, List.length_singleton] at hil
      by_cases hlt : i < l.heap.length
      · have h0 := hbound i hlt p (List.mem_cons_of_mem _ hp)
        have hr : l.heap[i]? = some l.heap[i] := List.getElem?_eq_getElem hlt
        have hrl : l.heap[i] < (data l.mem).length := by
          rw [data_length]
          exact Wf_ptr_lt hi.wf (List.getElem?_mem hr)
        simp only [slotTime, hheap1, List.getElem?_append_left hlt, hr, timeOf_eq_data, hd1,
          List.getElem?_append_left hrl] at h0 ⊢
        exact h0
      · have hie : i = l.heap.length := by omega
        subst hie
        have : slotTime ⟨l1.mem, l1.heap⟩ l.heap.length = t := by
          simp [slotTime, hheap1, timeOf_eq_data, hd1, ← data_length]
        rw [this]
        exact hmono.1 _ (List.mem_map.2 ⟨p, hp, rfl⟩)
    have hnew1 : ∀ p ∈ ps, held l1 p.1 = none := by
      intro p hp
      rw [hheld1]
      have hne : ¬ (p.1 = k) := by
        intro e
        exact hnd.1 (List.mem_map.2 ⟨p, hp, e⟩)
      simp only [hne, if_false]
      exact hnew p (List.mem_cons_of_mem _ hp)
    obtain ⟨l', suffix, ext, hrun, hi', hcap', hlen', hheap', hd', hout, hin⟩ :=
      run_puts_room ps l1 hi1 (by rw [hcap1, hlen1]; push_cast; push_cast at hcap; omega)
        hnd.2 hnew1 hmono.2 hb1
    refine ⟨l', [l.mem.length] ++ suffix, [(t, k, v)] ++ ext, ?_, hi', hcap'.trans hcap1, ?_,
      ?_, ?_, ?_, ?_⟩
    · simp only [putOps, List.map_cons, run, step, hput, Option.some_bind]
      exact hrun
    · rw [hlen', hlen1]
      simp only [List.length_cons]
      omega
    · rw [hheap', hheap1, List.append_assoc]
    · rw [hd', hd1, List.append_assoc]
    · intro k' hk'
      simp only [List.map_cons, List.mem_cons, not_or] at hk'
      rw [hout k' hk'.2, hheld1]
      simp [hk'.1]
    · intro p hp
      rcases List.mem_cons.1 hp with hp | hp
      · subst hp
        simp only
        rw [hout k hnd.1, hheld1]
        simp
      · exact hin p hp

theorem held_NewLRU (C : Int) (k : Key) : held (NewLRU C : LRU V) k = none := by
  simp [held, NewLRU, mapGet]

/-- C2 (LRU order without reads): on `NewLRU(C)` with `C ≥ 1`, putting `C + 1`
pairwise distinct keys `k1, k2, .., k(C+1)` at non-decreasing clock readings (ties
allowed), with no `Get` in between, returns normally, leaves `k1` absent (`Get(k1)` is
not found) and leaves every one of `k2 .. k(C+1)` retrievable with the value put for it. -/
theorem C2_lru_order_without_reads (C : Int) (hC : 1 ≤ C) (p1 : Key × Option V × Int)
    (ps : List (Key × Option V × Int)) (hlen : (ps.length : Int) = C)
    (hnd : ((p1 :: ps).map (fun p => p.1)).Nodup)
    (hmono : ((p1 :: ps).map (fun p => p.2.2)).Sorted (fun a b => a ≤ b)) :
    ∃ l, run (NewLRU C) (putOps (p1 :: ps)) = some l ∧
      (∀ t, Get l p1.1 t = some (l, (none, false))) ∧
      (∀ p ∈ ps, ∀ t, Get l p.1 t = some (l, (p.2.1, true))) := by
  obtain ⟨k1, v1, t1⟩ := p1
  have hne : ps ≠ [] := by
    intro h
    subst h
    simp at hlen
    omega
  obtain ⟨mid, pl, hps⟩ : ∃ mid pl, ps = mid ++ [pl] :=
    ⟨ps.dropLast, ps.getLast hne, (List.dropLast_append_getLast hne).symm⟩
  subst hps
  obtain ⟨kl, vl, tl⟩ := pl
  simp only [List.map_cons, List.map_append, List.nodup_cons, List.mem_append, List.mem_map,
    List.mem_singleton, not_or, List.nodup_append, List.nodup_singleton, List.map_nil,
    List.length_append, List.length_singleton] at hnd hlen
  unfold List.Sorted at hmono
  simp only [List.map_cons, List.map_append, List.pairwise_cons, List.pairwise_append,
    List.mem_append, List.mem_map, List.mem_singleton, List.map_nil] at hmono
  obtain ⟨⟨hk1mid, hk1l⟩, hndmid, _, hdisj⟩ := hnd
  obtain ⟨ht1, htmid, _, htl⟩ := hmono
  have hi0 : Inv (NewLRU C : LRU V) := Inv_NewLRU C hC
  -- the first `Put`
  obtain ⟨l1, hput1, hi1, hcap1, hlen1, hheld1, hd1, _, hnoop1⟩ :=
    Put_room_spec (NewLRU C : LRU V) k1 v1 t1 hi0 (held_NewLRU C k1)
      (by simp [NewLRU]; omega)
  have hheap1 : l1.heap = [0] := by
    have := hnoop1 (fun i hil => by simp [NewLRU] at hil)
    simpa [NewLRU] using this
  have hdata1 : data l1.mem = [(t1, k1, v1)] := by simpa [NewLRU, data] using hd1
  -- the next `C - 1` calls
  have hb1 : ∀ i, i < l1.heap.length → ∀ p ∈ mid, slotTime ⟨l1.mem, l1.heap⟩ i ≤ p.2.2 := by
    intro i hil p hp
    rw [hheap1] at hil
    simp at hil
    subst hil
    have : slotTime ⟨l1.mem, l1.heap⟩ 0 = t1 := by
      simp [slotTime, hheap1, timeOf_eq_data, hdata1]
    rw [this]
    exact ht1 _ (Or.inl ⟨p, hp, rfl⟩)
  have hnew1 : ∀ p ∈ mid, held l1 p.1 = none := by
    intro p hp
    rw [hheld1]
    have hne1 : ¬ (p.1 = k1) := fun e => hk1mid ⟨p, hp, e⟩
    simp only [hne1, if_false]
    exact held_NewLRU C _
  obtain ⟨l2, suffix, ext, hrun2, hi2, hcap2, hlen2, hheap2, hd2, hout2, hin2⟩ :=
    run_puts_room mid l1 hi1 (by
      rw [hcap1, hlen1]
      simp only [NewLRU, List.length_nil]
      push_cast
      omega) hndmid hnew1 htmid hb1
  -- the last `Put`, on a full cache
  have hkl1 : ¬ (kl = k1) := fun e => hk1l e.symm
  have hklmid : kl ∉ mid.map (fun p => p.1) := by
    intro hmem
    obtain ⟨p, hp, e⟩ := List.mem_map.1 hmem
    exact hdisj (List.mem_map.2 ⟨p, hp, e⟩) (List.mem_singleton.2 rfl)
  have hheldl : held l2 kl = none := by
    rw [hout2 kl hklmid, hheld1]
    simp only [hkl1, if_false]
    exact held_NewLRU C _
  have hfull : (l2.entries.length : Int) ≥ l2.capacity := by
    rw [hcap2, hcap1, hlen2, hlen1]
    simp only [NewLRU, List.length_nil]
    push_cast
    omega
  obtain ⟨l3, x, ex, hput3, hi3, _, hx0, hex, _, _, hheld3, _, _⟩ :=
    Put_full_spec l2 kl vl tl hi2 hheldl hfull
  have hx : x = 0 := by
    rw [hheap2, hheap1] at hx0
    simpa using hx0.symm
  subst hx
  have hexk : ex.key = k1 := by
    have h1 : (data l2.mem)[0]? = some (t1, k1, v1) := by
      rw [hd2, hdata1]
      simp
    rw [data_getElem?, hex] at h1
    simp at h1
    exact h1.2.1
  refine ⟨l3, ?_, ?_, ?_⟩
  · have hops : putOps ((k1, v1, t1) :: (mid ++ [(kl, vl, tl)])) =
        Op.put k1 v1 t1 :: (putOps mid ++ [Op.put kl vl tl]) := by
      simp [putOps]
    rw [hops]
    simp only [run, step, hput1, Option.some_bind, run_append, hrun2, hput3]
  · intro t
    rw [Get_eq hi3.wf, hheld3]
    have hne1 : ¬ (k1 = kl) := hk1l
    simp only [hne1, if_false, hexk, if_true]
    rfl
  · intro p hp t
    rw [Get_eq hi3.wf, hheld3]
    rcases List.mem_append.1 hp with hp | hp
    · have hne1 : ¬ (p.1 = kl) := by
        intro e
        exact hdisj (List.mem_map.2 ⟨p, hp, rfl⟩) (List.mem_singleton.2 e)
      have hne2 : ¬ (p.1 = ex.key) := by
        rw [hexk]
        exact fun e => hk1mid ⟨p, hp, e⟩
      simp only [hne1, hne2, if_false]
      rw [hin2 p hp]
      rfl
    · simp only [List.mem_singleton] at hp
      subst hp
      simp only [if_true]
      rfl

/-! ## The example states are reachable -/

theorem exOne_reachable : Reachable 2 exOne :=
  Reachable.put (NewLRU 2) exOne keyA (some 1) 1 Reachable.init (by decide)

theorem exFull_reachable : Reachable 2 exFull :=
  Reachable.put exOne exFull keyB (some 2) 2 exOne_reachable (by decide)

/-! ## The claims -/

/-- C1 (recency refresh on read), evaluated on the scenario of the specification:
capacity 2, `Put("a",1)`, `Put("b",2)`, `Get("a")`, `Put("c",3)` at the clock readings
1, 2, 3, 4.  `Get("a")` returns `(1, true)`, but it writes no timestamp, so the last `Put`
evicts `"a"`: afterwards `Get("a")` is not found and `Get("b")` returns `(2, true)`. -/
theorem C1_get_does_not_refresh :
    ∃ l2 l3 l4 : LRU Nat,
      run (NewLRU 2) [Op.put keyA (some 1) 1, Op.put keyB (some 2) 2] = some l2 ∧
      Get l2 keyA 3 = some (l3, (some 1, true)) ∧
      Put l3 keyC (some 3) 4 = some l4 ∧
      Get l4 keyA 5 = some (l4, (none, false)) ∧
      Get l4 keyB 5 = some (l4, (some 2, true)) ∧
      Get l4 keyC 5 = some (l4, (some 3, true)) := by
  refine ⟨exFull, exFull, ?_, by decide, by decide, ?_⟩
  · exact { capacity := 2,
            entries := [(keyC, 2), (keyB, 1)],
            heap := [1, 2],
            mem := [{ heapIdx := 1, lastAccessTime := 1, key := keyA, val := some 1 },
                    { heapIdx := 0, lastAccessTime := 2, key := keyB, val := some 2 },
                    { heapIdx := 1, lastAccessTime := 4, key := keyC, val := some 3 }] }
  · decide

/-- The scenario of C2 with capacity 2 and a tie between the first two clock readings. -/
theorem C2_witness :
    (1 : Int) ≤ 2 ∧
    ∃ l : LRU Nat,
      run (NewLRU 2) (putOps [(keyA, some 1, 1), (keyB, some 2, 1), (keyC, some 3, 2)]) = some l ∧
      (∀ t, Get l keyA t = some (l, (none, false))) ∧
      (∀ p ∈ [(keyB, some 2, (1 : Int)), (keyC, some 3, 2)], ∀ t,
        Get l p.1 t = some (l, (p.2.1, true))) :=
  ⟨by decide,
   C2_lru_order_without_reads 2 (by decide) (keyA, some 1, 1)
     [(keyB, some 2, 1), (keyC, some 3, 2)] (by decide) (by decide) (by decide)⟩

/-- C3 (capacity bound): on `NewLRU(C)` with `C ≥ 1`, take any finite sequence of `Put`
and `Get` calls (any keys, values and clock readings).  After each of its calls, that is
after its first `n` calls for every `n`, the run has returned normally and the state has
a table without repeated keys that holds at most `C` keys, and a capacity field that is
still `C`. -/
theorem C3_capacity_bound (C : Int) (hC : 1 ≤ C) (ops : List (Op V)) (n : Nat) :
    ∃ l, run (NewLRU C) (ops.take n) = some l ∧ (l.entries.map Prod.fst).Nodup ∧
      (l.entries.length : Int) ≤ C ∧ l.capacity = C := by
  obtain ⟨l, hrun, hi, hc⟩ := run_inv (ops.take n) (NewLRU C) (Inv_NewLRU C hC)
  have hc' : l.capacity = C := hc
  exact ⟨l, hrun, hi.wf.nodup, by rw [← hc']; exact hi.cap, hc'⟩

/-- C3 on capacity 2, after the first four of five calls, three of them on new keys. -/
theorem C3_witness :
    (1 : Int) ≤ 2 ∧
    ∃ l : LRU Nat,
      run (NewLRU 2) ([Op.put keyA (some 1) 1, Op.put keyB (some 2) 2, Op.get keyA 3,
        Op.put keyC (some 3) 4, Op.get keyB 5].take 4) = some l ∧
      (l.entries.map Prod.fst).Nodup ∧ (l.entries.length : Int) ≤ 2 ∧ l.capacity = 2 :=
  ⟨by decide, C3_capacity_bound 2 (by decide) _ 4⟩

theorem Put_held_self (l : LRU V) (k : Key) (v : Option V) (t : Int) (hi : Inv l) :
    ∃ l' t', Put l k v t = some l' ∧ Inv l' ∧ l'.capacity = l.capacity ∧
      held l' k = some (t', v) := by
  cases h : held l k with
  | some d =>
    obtain ⟨l', hp, hi', hc, _, _, hh⟩ := Put_hit_spec l k v t hi d h
    exact ⟨l', d.1, hp, hi', hc, by rw [hh]; simp⟩
  | none =>
    by_cases hroom : (l.entries.length : Int) < l.capacity
    · obtain ⟨l', hp, hi', hc, _, hh, _⟩ := Put_room_spec l k v t hi h hroom
      exact ⟨l', t, hp, hi', hc, by rw [hh]; simp⟩
    · obtain ⟨l', _, _, hp, hi', hc, _, _, _, _, hh, _⟩ :=
        Put_full_spec l k v t hi h (by omega)
      exact ⟨l', t, hp, hi', hc, by rw [hh]; simp⟩

theorem countP_eq_one {α : Type} [DecidableEq α] (a : α) :
    ∀ (l : List α), l.Nodup → a ∈ l → l.countP (fun x => decide (x = a)) = 1
  | [], _, h => by simp at h
  | b :: l, hn, h => by
    simp only [List.nodup_cons] at hn
    by_cases hb : b = a
    · subst hb
      have h0 : l.countP (fun x => decide (x = b)) = 0 := by
        rw [List.countP_eq_zero]
        intro x hx
        simp only [decide_eq_true_eq]
        intro e
        subst e
        exact hn.1 hx
      simp [List.countP_cons, h0]
    · have hmem : a ∈ l := by
        rcases List.mem_cons.1 h with h | h
        · exact absurd h.symm hb
        · exact h
      simp [List.countP_cons, hb, countP_eq_one a l hn.2 hmem]

/-- C4 (Put then Get round trip): in every state reachable from `NewLRU(C)` with
`C ≥ 1`, for every key, value and clock readings, `Put(k, v)` returns normally, and a
`Get(k)` right after it returns `(v, true)`; the branch of `Put` that ran (key present,
absent with room, absent with the cache full) makes no difference. -/
theorem C4_put_get_round_trip (C : Int) (hC : 1 ≤ C) (l : LRU V) (hr : Reachable C l)
    (k : Key) (v : Option V) (t t' : Int) :
    ∃ l', Put l k v t = some l' ∧ Get l' k t' = some (l', (v, true)) := by
  obtain ⟨l', _, hp, hi', _, hh⟩ := Put_held_self l k v t (Reachable_inv hC hr).1
  refine ⟨l', hp, ?_⟩
  rw [Get_eq hi'.wf, hh]
  rfl

/-- C4 on the full example cache and a new key: the branch that evicts. -/
theorem C4_witness :
    (1 : Int) ≤ 2 ∧ Reachable 2 exFull ∧
    ∃ l', Put exFull keyC (some 3) 3 = some l' ∧ Get l' keyC 4 = some (l', (some 3, true)) :=
  ⟨by decide, exFull_reachable,
   C4_put_get_round_trip 2 (by decide) exFull exFull_reachable keyC (some 3) 3 4⟩

/-- C5 (overwrite): in every state reachable from `NewLRU(C)` with `C ≥ 1`, `Put(k, v1)`
followed by `Put(k, v2)` both return normally; afterwards the table has exactly one
entry for `k`, exactly one heap slot holds an entry with key `k`, `Get(k)` returns
`(v2, true)`, and the table (so the entry count and the set of held keys) and the heap
slice are what they were right after the first `Put`. -/
theorem C5_overwrite (C : Int) (hC : 1 ≤ C) (l : LRU V) (hr : Reachable C l)
    (k : Key) (v1 v2 : Option V) (t1 t2 t3 : Int) :
    ∃ l1 l2, Put l k v1 t1 = some l1 ∧ Put l1 k v2 t2 = some l2 ∧
      (l2.entries.map Prod.fst).countP (fun k' => decide (k' = k)) = 1 ∧
      l2.heap.countP (fun p => decide (keyOf l2.mem p = some k)) = 1 ∧
      Get l2 k t3 = some (l2, (v2, true)) ∧
      l2.entries.length = l1.entries.length ∧ l2.entries = l1.entries ∧
      l2.heap = l1.heap := by
  obtain ⟨l1, ta, hp1, hi1, _, hh1⟩ := Put_held_self l k v1 t1 (Reachable_inv hC hr).1
  obtain ⟨l2, hp2, hi2, _, hent, hheap, hh2⟩ := Put_hit_spec l1 k v2 t2 hi1 _ hh1
  have hheld2 : held l2 k = some (ta, v2) := by rw [hh2]; simp
  obtain ⟨p, hm⟩ : ∃ p, mapGet l2.entries k = some p := by
    cases hm : mapGet l2.entries k with
    | none =>
      rw [(held_eq_none_iff hi2.wf k).2 hm] at hheld2
      cases hheld2
    | some p => exact ⟨p, rfl⟩
  refine ⟨l1, l2, hp1, hp2, ?_, ?_, ?_, by rw [hent], hent, hheap⟩
  · apply countP_eq_one k _ hi2.wf.nodup
    by_contra hnot
    rw [(mapGet_eq_none_iff _ _).2 hnot] at hm
    cases hm
  · have hcount : l2.heap.countP (fun q => decide (keyOf l2.mem q = some k)) =
        l2.heap.countP (fun q => decide (q = p)) := by
      apply List.countP_congr
      intro q hq
      simp only [decide_eq_true_eq]
      constructor
      · intro hk
        have := (hi2.wf.corr k q).2 ⟨hq, hk⟩
        rw [hm] at this
        exact (Option.some.inj this).symm
      · intro hqp
        subst hqp
        exact ((hi2.wf.corr k q).1 hm).2
    rw [hcount]
    exact countP_eq_one p _ (IdxOk_nodup hi2.wf.idx) ((hi2.wf.corr k p).1 hm).1
  · rw [Get_eq hi2.wf, hheld2]
    rfl

/-- C5 on the one-entry example cache and a key that is new to it. -/
theorem C5_witness :
    (1 : Int) ≤ 2 ∧ Reachable 2 exOne ∧
    ∃ l1 l2, Put exOne keyB (some 5) 2 = some l1 ∧ Put l1 keyB (some 6) 3 = some l2 ∧
      (l2.entries.map Prod.fst).countP (fun k' => decide (k' = keyB)) = 1 ∧
      l2.heap.countP (fun p => decide (keyOf l2.mem p = some keyB)) = 1 ∧
      Get l2 keyB 4 = some (l2, (some 6, true)) ∧
      l2.entries.length = l1.entries.length ∧ l2.entries = l1.entries ∧
      l2.heap = l1.heap :=
  ⟨by decide, exOne_reachable,
   C5_overwrite 2 (by decide) exOne exOne_reachable keyB (some 5) (some 6) 2 3 4⟩

/-- C6 (miss reporting): in every state reachable from `NewLRU(C)`, a `Get` on a key
that is not in the table returns `(nil, false)` and hands back the very same state (key
set, values, timestamps, `heapIdx` fields, heap slot order).  In particular, with
`C ≥ 1`, when the table is full and `k` is absent, `Put(k, v)` evicts a key that was
held, and every `Get` on that key afterwards is a miss that changes nothing. -/
theorem C6_miss_reporting (C : Int) (l : LRU V) (hr : Reachable C l) :
    (∀ k t, mapGet l.entries k = none → Get l k t = some (l, (none, false))) ∧
    (1 ≤ C → ∀ k v t, mapGet l.entries k = none → (l.entries.length : Int) ≥ C →
      ∃ l' kv, Put l k v t = some l' ∧ mapGet l.entries kv ≠ none ∧
        mapGet l'.entries kv = none ∧ ∀ t', Get l' kv t' = some (l', (none, false))) := by
  constructor
  · intro k t hk
    exact Get_miss l k t hk
  · intro hC k v t hk hfull
    obtain ⟨hi, hcap⟩ := Reachable_inv hC hr
    obtain ⟨l', x, ex, hp, hi', _, _, _, hmx, _, hh, _, _⟩ :=
      Put_full_spec l k v t hi ((held_eq_none_iff hi.wf k).2 hk) (by rw [hcap]; exact hfull)
    have hne : ¬ (ex.key = k) := by
      intro e
      rw [e, hk] at hmx
      cases hmx
    have hnone : mapGet l'.entries ex.key = none := by
      rw [← held_eq_none_iff hi'.wf, hh]
      simp [hne]
    refine ⟨l', ex.key, hp, by rw [hmx]; simp, hnone, fun t' => Get_miss l' _ t' hnone⟩

/-- C6 on the full example cache: `"c"` is absent, and `Put("c", 3)` evicts a key. -/
theorem C6_witness :
    Reachable 2 exFull ∧ mapGet exFull.entries keyC = none ∧
    Get exFull keyC 3 = some (exFull, (none, false)) ∧
    (1 : Int) ≤ 2 ∧ (exFull.entries.length : Int) ≥ 2 ∧
    ∃ l' kv, Put exFull keyC (some 3) 3 = some l' ∧ mapGet exFull.entries kv ≠ none ∧
        mapGet l'.entries kv = none ∧ ∀ t', Get l' kv t' = some (l', (none, false)) :=
  ⟨exFull_reachable, by decide,
   (C6_miss_reporting 2 exFull exFull_reachable).1 keyC 3 (by decide),
   by decide, by decide,
   (C6_miss_reporting 2 exFull exFull_reachable).2 (by decide) keyC (some 3) 3
     (by decide) (by decide)⟩

/-- C7 (eviction victim): in a state reachable from `NewLRU(C)` with `C ≥ 1`, let `k`
be a key that is not in the table.  If the table holds `C` keys, `Put(k, v)` removes
exactly one held key `kv`: its entry has a `lastAccessTime` less than or equal to that
of every entry held before the call, its pointer leaves the heap and its key leaves the
table, every other pointer stays in the heap, every other key keeps what it held, and
`k` is added with the value `v` and the clock reading.  If the table holds fewer than
`C` keys, `Put(k, v)` removes nothing and adds `k`. -/
theorem C7_eviction_victim (C : Int) (hC : 1 ≤ C) (l : LRU V) (hr : Reachable C l)
    (k : Key) (v : Option V) (t : Int) (hk : mapGet l.entries k = none) :
    ((l.entries.length : Int) = C →
      ∃ l' kv x d, Put l k v t = some l' ∧
        mapGet l.entries kv = some x ∧ held l kv = some d ∧
        (∀ k' d', held l k' = some d' → d.1 ≤ d'.1) ∧
        mapGet l'.entries kv = none ∧ x ∈ l.heap ∧ x ∉ l'.heap ∧
        (∀ q, q ∈ l.heap → q ≠ x → q ∈ l'.heap) ∧
        (∀ k', k' ≠ kv → k' ≠ k → held l' k' = held l k') ∧
        held l' k = some (t, v) ∧ l'.entries.length = l.entries.length) ∧
    ((l.entries.length : Int) < C →
      ∃ l', Put l k v t = some l' ∧
        (∀ k', k' ≠ k → held l' k' = held l k') ∧
        (∀ q, q ∈ l.heap → q ∈ l'.heap) ∧
        held l' k = some (t, v) ∧ l'.entries.length = l.entries.length + 1) := by
  obtain ⟨hi, hcap⟩ := Reachable_inv hC hr
  have hh0 : held l k = none := (held_eq_none_iff hi.wf k).2 hk
  constructor
  · intro hfull
    obtain ⟨l', x, ex, hp, hi', _, hx0, hex, hmx, hlen, hh, hmin, hperm⟩ :=
      Put_full_spec l k v t hi hh0 (by rw [hcap]; omega)
    have hne : ¬ (ex.key = k) := by
      intro e
      rw [e, hk] at hmx
      cases hmx
    have hxmem : x ∈ l.heap := List.getElem?_mem hx0
    have hfresh : l.mem.length ∉ l.heap := fun hmem =>
      absurd (Wf_ptr_lt hi.wf hmem) (lt_irrefl _)
    have hnd : (l'.heap ++ [x]).Nodup := by
      rw [hperm.nodup_iff, List.nodup_append]
      refine ⟨IdxOk_nodup hi.wf.idx, List.nodup_singleton _, ?_⟩
      intro a ha hb
      rw [List.mem_singleton] at hb
      subst hb
      exact hfresh ha
    refine ⟨l', ex.key, x, (ex.lastAccessTime, ex.val), hp, hmx, held_of_mapGet hmx hex,
      ?_, ?_, hxmem, ?_, ?_, ?_, ?_, hlen⟩
    · intro k' d' hd'
      exact hmin k' d' hd'
    · rw [← held_eq_none_iff hi'.wf, hh]
      simp [hne]
    · intro hmem
      exact (List.nodup_append.1 hnd).2.2 hmem (List.mem_singleton.2 rfl)
    · intro q hq hqx
      have : q ∈ l'.heap ++ [x] := hperm.mem_iff.2 (List.mem_append.2 (Or.inl hq))
      rcases List.mem_append.1 this with h | h
      · exact h
      · exact absurd (List.mem_singleton.1 h) hqx
    · intro k' h1 h2
      rw [hh]
      simp [h1, h2]
    · rw [hh]
      simp
  · intro hroom
    obtain ⟨l', hp, _, _, hlen, hh, _, hperm, _⟩ :=
      Put_room_spec l k v t hi hh0 (by rw [hcap]; exact hroom)
    refine ⟨l', hp, ?_, ?_, ?_, hlen⟩
    · intro k' h1
      rw [hh]
      simp [h1]
    · intro q hq
      exact hperm.mem_iff.2 (List.mem_append.2 (Or.inl hq))
    · rw [hh]
      simp

/-- C7 on the full example cache and the new key `"c"`. -/
theorem C7_witness :
    (1 : Int) ≤ 2 ∧ Reachable 2 exFull ∧ mapGet exFull.entries keyC = none ∧
    (exFull.entries.length : Int) = 2 ∧
    ∃ l' kv x d, Put exFull keyC (some 3) 3 = some l' ∧
        mapGet exFull.entries kv = some x ∧ held exFull kv = some d ∧
        (∀ k' d', held exFull k' = some d' → d.1 ≤ d'.1) ∧
        mapGet l'.entries kv = none ∧ x ∈ exFull.heap ∧ x ∉ l'.heap ∧
        (∀ q, q ∈ exFull.heap → q ≠ x → q ∈ l'.heap) ∧
        (∀ k', k' ≠ kv → k' ≠ keyC → held l' k' = held exFull k') ∧
        held l' keyC = some (3, some 3) ∧ l'.entries.length = exFull.entries.length :=
  ⟨by decide, exFull_reachable, by decide, by decide,
   (C7_eviction_victim 2 (by decide) exFull exFull_reachable keyC (some 3) 3 (by decide)).1
     (by decide)⟩

/-- C8 (heap/table correspondence, I1): in every state reachable from `NewLRU(C)` with
`C ≥ 1`, the heap slice is as long as the table, no key stands in two heap slots, the
table has no repeated key, and the table maps a key `k` to a pointer `p` if and only if
`p` stands in some heap slot and the entry behind `p` carries the key `k`. -/
theorem C8_heap_table_correspondence (C : Int) (hC : 1 ≤ C) (l : LRU V)
    (hr : Reachable C l) :
    l.heap.length = l.entries.length ∧
    (l.heap.map (keyOf l.mem)).Nodup ∧
    (l.entries.map Prod.fst).Nodup ∧
    (∀ k p, mapGet l.entries k = some p ↔ (p ∈ l.heap ∧ keyOf l.mem p = some k)) := by
  obtain ⟨hi, _⟩ := Reachable_inv hC hr
  refine ⟨hi.wf.len.symm, ?_, hi.wf.nodup, hi.wf.corr⟩
  apply List.Nodup.map_on _ (IdxOk_nodup hi.wf.idx)
  intro p hp q hq hpq
  obtain ⟨i, hi'⟩ := List.mem_iff_getElem?.1 hp
  obtain ⟨e, he, _⟩ := hi.wf.idx i p hi'
  have hkp : keyOf l.mem p = some e.key := by simp [keyOf, he]
  have h1 := (hi.wf.corr e.key p).2 ⟨hp, hkp⟩
  have h2 := (hi.wf.corr e.key q).2 ⟨hq, by rw [← hpq]; exact hkp⟩
  rw [h1] at h2
  exact Option.some.inj h2

/-- C8 on the full example cache. -/
theorem C8_witness :
    (1 : Int) ≤ 2 ∧ Reachable 2 exFull ∧
    exFull.heap.length = exFull.entries.length ∧
    (exFull.heap.map (keyOf exFull.mem)).Nodup ∧
    (exFull.entries.map Prod.fst).Nodup ∧
    (∀ k p, mapGet exFull.entries k = some p ↔
      (p ∈ exFull.heap ∧ keyOf exFull.mem p = some k)) :=
  ⟨by decide, exFull_reachable,
   C8_heap_table_correspondence 2 (by decide) exFull exFull_reachable⟩

/-- C9 (heap order, I3): in every state reachable from `NewLRU(C)` with `C ≥ 1`, under
arbitrary clock readings, no heap slot holds an entry with a smaller `lastAccessTime`
than the entry of its parent slot `(j - 1) / 2`; so the entry at slot 0 has a
`lastAccessTime` less than or equal to that of every slot and of every held entry. -/
theorem C9_heap_order (C : Int) (hC : 1 ≤ C) (l : LRU V) (hr : Reachable C l) :
    (∀ j, 0 < j → j < l.heap.length →
      slotTime ⟨l.mem, l.heap⟩ ((j - 1) / 2) ≤ slotTime ⟨l.mem, l.heap⟩ j) ∧
    (∀ i, i < l.heap.length → slotTime ⟨l.mem, l.heap⟩ 0 ≤ slotTime ⟨l.mem, l.heap⟩ i) ∧
    (∀ k d, held l k = some d → slotTime ⟨l.mem, l.heap⟩ 0 ≤ d.1) := by
  obtain ⟨hi, _⟩ := Reachable_inv hC hr
  refine ⟨hi.wf.ord, HeapOrd_root_le hi.wf.ord, ?_⟩
  intro k d hd
  cases hm : mapGet l.entries k with
  | none =>
    rw [(held_eq_none_iff hi.wf k).2 hm] at hd
    cases hd
  | some q =>
    obtain ⟨i, e, hi', he, _, _⟩ := Wf_slot hi.wf hm
    rw [held_of_mapGet hm he] at hd
    cases hd
    have h1 := HeapOrd_root_le hi.wf.ord i (getElem?_lt hi')
    have h2 : slotTime ⟨l.mem, l.heap⟩ i = e.lastAccessTime := by
      simp [slotTime, timeOf, hi', he]
    rw [h2] at h1
    exact h1

/-- C9 on the full example cache. -/
theorem C9_witness :
    (1 : Int) ≤ 2 ∧ Reachable 2 exFull ∧
    (∀ j, 0 < j → j < exFull.heap.length →
      slotTime ⟨exFull.mem, exFull.heap⟩ ((j - 1) / 2) ≤ slotTime ⟨exFull.mem, exFull.heap⟩ j) ∧
    (∀ i, i < exFull.heap.length →
      slotTime ⟨exFull.mem, exFull.heap⟩ 0 ≤ slotTime ⟨exFull.mem, exFull.heap⟩ i) ∧
    (∀ k d, held exFull k = some d → slotTime ⟨exFull.mem, exFull.heap⟩ 0 ≤ d.1) :=
  ⟨by decide, exFull_reachable, C9_heap_order 2 (by decide) exFull exFull_reachable⟩

/-- C10 as stated fails at capacity 0: the call `NewLRU(0)` returns a cache, and a
`Get` on that cache returns normally. -/
theorem C10_counterexample :
    ¬ (∀ c : Int, c ≤ 0 → (NewLRU.call c : Option (LRU Nat)) = none) ∧
    (NewLRU.call 0 : Option (LRU Nat)) = some (NewLRU 0) ∧
    Get (NewLRU 0 : LRU Nat) keyA 1 = some (NewLRU 0, (none, false)) := by
  refine ⟨?_, rfl, by decide⟩
  intro h
  have := h 0 (le_refl _)
  simp [NewLRU.call] at this

/-- C10, amended: for every capacity `c ≤ 0` the call `NewLRU(c)` returns, without a
panic or an error, a cache with the capacity field `c`, an empty table and an empty
heap; every `Get` on it returns `(nil, false)` and leaves it as it is. -/
theorem C10_nonpositive_capacity_is_accepted (c : Int) (_hc : c ≤ 0) :
    ∃ l : LRU V, NewLRU.call c = some l ∧ l.capacity = c ∧ l.entries = [] ∧ l.heap = [] ∧
      ∀ k t, Get l k t = some (l, (none, false)) := by
  refine ⟨NewLRU c, rfl, rfl, rfl, rfl, ?_⟩
  intro k t
  exact Get_miss _ k t rfl

/-- C10, amended, at capacity `-1`. -/
theorem C10_witness :
    (-1 : Int) ≤ 0 ∧
    ∃ l : LRU Nat, NewLRU.call (-1) = some l ∧ l.capacity = -1 ∧ l.entries = [] ∧
      l.heap = [] ∧ ∀ k t, Get l k t = some (l, (none, false)) :=
  ⟨by decide, C10_nonpositive_capacity_is_accepted (-1) (by decide)⟩

/-! ## Faults, back-indices and the frame of `Put` -/

theorem index_some_range {α : Type} {s : List α} {i : Int} {a : α} (h : index s i = some a) :
    0 ≤ i ∧ i < (s.length : Int) := by
  unfold index at h
  by_cases h0 : 0 ≤ i
  · simp only [h0, if_true] at h
    have := getElem?_lt h
    omega
  · simp [h0] at h

theorem Less_some_range {s : HeapRef V} {i j : Int} {b : Bool} (h : Less s i j = some b) :
    (0 ≤ i ∧ i < Len s) ∧ (0 ≤ j ∧ j < Len s) := by
  unfold Less at h
  cases hi : index s.h i with
  | none => simp [hi] at h
  | some p =>
    cases hj : index s.h j with
    | none =>
      simp only [hi, hj, Option.bind_eq_bind, Option.some_bind] at h
      cases hp : s.mem[p]? <;> simp [hp] at h
    | some q => exact ⟨index_some_range hi, index_some_range hj⟩

theorem Swap_some_range {s s' : HeapRef V} {i j : Int} (h : Swap s i j = some s') :
    (0 ≤ i ∧ i < Len s) ∧ (0 ≤ j ∧ j < Len s) := by
  unfold Swap at h
  cases hi : index s.h i with
  | none => simp [hi] at h
  | some p =>
    cases hj : index s.h j with
    | none => simp [hi, hj] at h
    | some q => exact ⟨index_some_range hi, index_some_range hj⟩

theorem Pop_some_range {s : HeapRef V} {r : HeapRef V × Nat} (h : Pop s = some r) :
    0 < s.h.length := by
  unfold Pop at h
  cases hi : index s.h ((s.h.length : Int) - 1) with
  | none => simp [hi] at h
  | some p =>
    have := index_some_range hi
    omega

/-- C11 (no empty-heap pop): in every state reachable from `NewLRU(C)` with `C ≥ 1`, the
heap is non-empty whenever the eviction test `len(entries) >= capacity` holds, and on a
new key in a full cache `heap.Pop` returns; every `Put` and every `Get` returns normally,
and so does every further sequence of calls.  In the embedding a slice index outside its
range is a fault: `Less`, `Swap` and the method `Pop` return only when every index they
use lies within the backing sequence. -/
theorem C11_no_empty_heap_pop (C : Int) (hC : 1 ≤ C) (l : LRU V) (hr : Reachable C l) :
    ((l.entries.length : Int) ≥ l.capacity → 0 < l.heap.length) ∧
    ((l.entries.length : Int) ≥ l.capacity → ∃ r, heap.Pop ⟨l.mem, l.heap⟩ = some r) ∧
    (∀ k v t, ∃ l', Put l k v t = some l') ∧
    (∀ k t, ∃ r, Get l k t = some (l, r)) ∧
    (∀ ops : List (Op V), ∃ l', run l ops = some l') ∧
    (∀ (s : HeapRef V) (i j : Int) (b : Bool), Less s i j = some b →
      (0 ≤ i ∧ i < Len s) ∧ (0 ≤ j ∧ j < Len s)) ∧
    (∀ (s s' : HeapRef V) (i j : Int), Swap s i j = some s' →
      (0 ≤ i ∧ i < Len s) ∧ (0 ≤ j ∧ j < Len s)) ∧
    (∀ (s : HeapRef V) (r : HeapRef V × Nat), Pop s = some r → 0 < s.h.length) := by
  obtain ⟨hi, _⟩ := Reachable_inv hC hr
  have hne : (l.entries.length : Int) ≥ l.capacity → 0 < l.heap.length := by
    intro hfull
    have h1 := hi.pos
    have h2 := hi.wf.len
    omega
  refine ⟨hne, ?_, ?_, ?_, ?_, fun s i j b h => Less_some_range h,
    fun s s' i j h => Swap_some_range h, fun s r h => Pop_some_range h⟩
  · intro hfull
    obtain ⟨s', x, hpop, _⟩ := heap_Pop_spec ⟨l.mem, l.heap⟩ hi.wf.idx (hne hfull) hi.wf.ord
    exact ⟨_, hpop⟩
  · intro k v t
    obtain ⟨l', hp, _⟩ := Put_inv l k v t hi
    exact ⟨l', hp⟩
  · intro k t
    exact ⟨_, Get_eq hi.wf k t⟩
  · intro ops
    obtain ⟨l', hrun, _⟩ := run_inv ops l hi
    exact ⟨l', hrun⟩

/-- C11 on the full example cache. -/
theorem C11_witness :
    (1 : Int) ≤ 2 ∧ Reachable 2 exFull ∧
    (exFull.entries.length : Int) ≥ exFull.capacity ∧ 0 < exFull.heap.length ∧
    (∃ r, heap.Pop ⟨exFull.mem, exFull.heap⟩ = some r) ∧
    (∃ l', Put exFull keyC (some 3) 3 = some l') ∧
    (∃ r, Get exFull keyA 3 = some (exFull, r)) :=
  ⟨by decide, exFull_reachable, by decide,
   (C11_no_empty_heap_pop 2 (by decide) exFull exFull_reachable).1 (by decide),
   (C11_no_empty_heap_pop 2 (by decide) exFull exFull_reachable).2.1 (by decide),
   (C11_no_empty_heap_pop 2 (by decide) exFull exFull_reachable).2.2.1 keyC (some 3) 3,
   (C11_no_empty_heap_pop 2 (by decide) exFull exFull_reachable).2.2.2.1 keyA 3⟩

/-- C12 (recency refresh on overwrite), evaluated on capacity 2 with `Put("a",1)`,
`Put("b",2)`, `Put("a",9)`, `Put("c",3)` at the clock readings 1, 2, 3, 4.  The
overwriting `Put` stores the value 9 but writes no timestamp: the entry of `"a"` keeps
`lastAccessTime = 1`, not 3.  So the last `Put` evicts `"a"`: afterwards `Get("a")` is not
found and `Get("b")` returns `(2, true)`. -/
theorem C12_put_does_not_refresh :
    ∃ l3 l4 : LRU Nat,
      run (NewLRU 2) [Op.put keyA (some 1) 1, Op.put keyB (some 2) 2,
        Op.put keyA (some 9) 3] = some l3 ∧
      held l3 keyA = some (1, some 9) ∧
      Put l3 keyC (some 3) 4 = some l4 ∧
      Get l4 keyA 5 = some (l4, (none, false)) ∧
      Get l4 keyB 5 = some (l4, (some 2, true)) ∧
      Get l4 keyC 5 = some (l4, (some 3, true)) := by
  refine ⟨{ capacity := 2,
            entries := [(keyB, 1), (keyA, 0)],
            heap := [0, 1],
            mem := [{ heapIdx := 0, lastAccessTime := 1, key := keyA, val := some 9 },
                    { heapIdx := 1, lastAccessTime := 2, key := keyB, val := some 2 }] },
          { capacity := 2,
            entries := [(keyC, 2), (keyB, 1)],
            heap := [1, 2],
            mem := [{ heapIdx := 1, lastAccessTime := 1, key := keyA, val := some 9 },
                    { heapIdx := 0, lastAccessTime := 2, key := keyB, val := some 2 },
                    { heapIdx := 1, lastAccessTime := 4, key := keyC, val := some 3 }] },
          ?_⟩
  decide

theorem Push_idx (s : HeapRef V) (x : Nat) (e : entry V) (hok : IdxOk s)
    (hx : s.mem[x]? = some e) (hnew : x ∉ s.h) :
    ∃ s', lru.Push s x = some s' ∧ s'.h = s.h ++ [x] ∧ IdxOk s' := by
  have hxl : x < s.mem.length := getElem?_lt hx
  refine ⟨⟨s.mem.set x { e with heapIdx := (s.h.length : Int) }, s.h ++ [x]⟩,
    by simp [Push, hx], rfl, ?_⟩
  intro k r hk
  simp only [List.getElem?_append, List.getElem?_set] at hk ⊢
  by_cases hkl : k < s.h.length
  · simp only [hkl, if_true] at hk
    have hne : ¬ (x = r) := by
      intro h
      subst h
      exact hnew (List.getElem?_mem hk)
    simp only [hne, if_false]
    exact hok k r hk
  · simp only [hkl, if_false] at hk
    have hk0 : k - s.h.length = 0 := by
      by_contra hc
      have : ([x] : List Nat)[k - s.h.length]? = none := by
        apply List.getElem?_eq_none
        simp
        omega
      rw [this] at hk
      cases hk
    rw [hk0] at hk
    simp at hk
    subst hk
    refine ⟨{ e with heapIdx := (s.h.length : Int) }, by simp [hxl], ?_⟩
    simp
    omega

theorem Pop_idx (s : HeapRef V) (hok : IdxOk s) (hne : 0 < s.h.length) :
    ∃ s' x, lru.Pop s = some (s', x) ∧ s'.h ++ [x] = s.h ∧ s'.mem = s.mem ∧ IdxOk s' := by
  obtain ⟨n, hn⟩ : ∃ n, s.h.length = n + 1 := ⟨s.h.length - 1, by omega⟩
  obtain ⟨x, hlast⟩ : ∃ x, s.h[n]? = some x :=
    ⟨s.h[n], List.getElem?_eq_getElem (by omega)⟩
  have hcast : ((n + 1 : Nat) : Int) - 1 = (n : Int) := by omega
  refine ⟨⟨s.mem, s.h.take n⟩, x, ?_, ?_, rfl, ?_⟩
  · unfold Pop
    rw [hn]
    simp [hcast, index_natCast, hlast]
  · simp only
    apply List.ext_getElem?
    intro k
    simp only [List.getElem?_append, List.length_take, hn]
    by_cases hk : k < n
    · have : k < min n (n + 1) := by omega
      simp only [this, if_true]
      exact List.getElem?_take_of_lt hk
    · have : ¬ (k < min n (n + 1)) := by omega
      simp only [this, if_false]
      by_cases hkn : k = n
      · subst hkn
        simp [hlast]
      · rw [List.getElem?_eq_none (by simp; omega), List.getElem?_eq_none (by omega)]
  · intro k r hk
    simp only at hk
    have hkn : k < n := by
      have := getElem?_lt hk
      simp at this
      omega
    rw [List.getElem?_take_of_lt hkn] at hk
    exact hok k r hk

theorem heap_Pop_idx (s : HeapRef V) (hok : IdxOk s) (hne : 0 < s.h.length) :
    ∃ s' x, heap.Pop s = some (s', x) ∧ (s'.h ++ [x]).Perm s.h ∧ IdxOk s' := by
  obtain ⟨n, hn⟩ : ∃ n, s.h.length = n + 1 := ⟨s.h.length - 1, by omega⟩
  have h0 : s.h[0]? = some s.h[0] := List.getElem?_eq_getElem hne
  have hnn : s.h[n]? = some s.h[n] := List.getElem?_eq_getElem (by omega)
  have hLen : Len s - 1 = (n : Int) := by
    unfold Len
    omega
  obtain ⟨m1, hsw, _, hok1⟩ := Swap_spec s 0 n _ _ hok h0 hnn
  simp only [Nat.cast_zero] at hsw
  obtain ⟨s2, i', hdl, _, _, hp2, _, hok2, _, _⟩ :=
    downLoop_spec n ⟨m1, (s.h.set 0 s.h[n]).set n s.h[0]⟩ n 0 hok1 (by simp; omega) (by omega)
  have hlen2 : 0 < s2.h.length := by
    rw [hp2.length_eq]
    simp
    omega
  obtain ⟨s3, x, hpop, happ, _, hok3⟩ := Pop_idx s2 hok2 hlen2
  have hdown : heap.down ⟨m1, (s.h.set 0 s.h[n]).set n s.h[0]⟩ 0 (n : Int) =
      some (s2, decide (i' > 0)) := by
    unfold heap.down
    simp only [Int.toNat_ofNat]
    have := hdl
    simp only [Nat.cast_zero] at this
    rw [this]
  refine ⟨s3, x, ?_, ?_, hok3⟩
  · simp only [heap.Pop, hLen]
    rw [hsw]
    simp only [Option.bind_eq_bind, Option.some_bind]
    rw [hdown]
    simp only [Option.some_bind]
    exact hpop
  · rw [happ]
    exact hp2.trans (swap_perm _ _ _ _ _ h0 hnn)

/-- C13 (back-index accuracy, I2): in every state reachable from `NewLRU(C)` with
`C ≥ 1`, the entry at every heap slot `i` has `heapIdx = i`, and for every key of the
table the heap slot at its entry's `heapIdx` holds that same entry.  On any heap with
accurate back-indices, `Swap` at two slots of the slice, `Push` of an entry that is not
in the heap, the truncation of the method `Pop`, and `heap.Pop` (swap, sift down, then
truncate) return normally and leave back-indices accurate for every entry still in the
heap. -/
theorem C13_back_index_accuracy (C : Int) (hC : 1 ≤ C) (l : LRU V) (hr : Reachable C l) :
    (∀ (i : Nat) (p : Nat), l.heap[i]? = some p →
      ∃ e, l.mem[p]? = some e ∧ e.heapIdx = (i : Int)) ∧
    (∀ k p, mapGet l.entries k = some p →
      ∃ e, l.mem[p]? = some e ∧ index l.heap e.heapIdx = some p) ∧
    (∀ (s : HeapRef V) (i j : Nat), IdxOk s → i < s.h.length → j < s.h.length →
      ∃ s', Swap s i j = some s' ∧ IdxOk s') ∧
    (∀ (s : HeapRef V) (x : Nat) (e : entry V), IdxOk s → s.mem[x]? = some e → x ∉ s.h →
      ∃ s', lru.Push s x = some s' ∧ IdxOk s') ∧
    (∀ (s : HeapRef V), IdxOk s → 0 < s.h.length →
      ∃ s' x, lru.Pop s = some (s', x) ∧ IdxOk s') ∧
    (∀ (s : HeapRef V), IdxOk s → 0 < s.h.length →
      ∃ s' x, heap.Pop s = some (s', x) ∧ IdxOk s') := by
  obtain ⟨hi, _⟩ := Reachable_inv hC hr
  refine ⟨hi.wf.idx, ?_, ?_, ?_, ?_, ?_⟩
  · intro k p hm
    obtain ⟨i, e, hslot, he, hei, _⟩ := Wf_slot hi.wf hm
    exact ⟨e, he, by rw [hei, index_natCast]; exact hslot⟩
  · intro s i j hok hil hjl
    obtain ⟨m', hsw, _, hok'⟩ := Swap_spec s i j _ _ hok
      (List.getElem?_eq_getElem hil) (List.getElem?_eq_getElem hjl)
    exact ⟨_, hsw, hok'⟩
  · intro s x e hok hx hnew
    obtain ⟨s', hp, _, hok'⟩ := Push_idx s x e hok hx hnew
    exact ⟨s', hp, hok'⟩
  · intro s hok hne
    obtain ⟨s', x, hp, _, _, hok'⟩ := Pop_idx s hok hne
    exact ⟨s', x, hp, hok'⟩
  · intro s hok hne
    obtain ⟨s', x, hp, _, hok'⟩ := heap_Pop_idx s hok hne
    exact ⟨s', x, hp, hok'⟩

/-- C13 on the full example cache, whose heap is then swapped and popped. -/
theorem C13_witness :
    (1 : Int) ≤ 2 ∧ Reachable 2 exFull ∧
    (∀ (i : Nat) (p : Nat), exFull.heap[i]? = some p →
      ∃ e, exFull.mem[p]? = some e ∧ e.heapIdx = (i : Int)) ∧
    (∀ k p, mapGet exFull.entries k = some p →
      ∃ e, exFull.mem[p]? = some e ∧ index exFull.heap e.heapIdx = some p) ∧
    (∃ s', Swap (⟨exFull.mem, exFull.heap⟩ : HeapRef Nat) (0 : Nat) (1 : Nat) = some s' ∧
      IdxOk s') ∧
    (∃ s' x, heap.Pop (⟨exFull.mem, exFull.heap⟩ : HeapRef Nat) = some (s', x) ∧ IdxOk s') :=
  ⟨by decide, exFull_reachable,
   (C13_back_index_accuracy 2 (by decide) exFull exFull_reachable).1,
   (C13_back_index_accuracy 2 (by decide) exFull exFull_reachable).2.1,
   (C13_back_index_accuracy 2 (by decide) exFull exFull_reachable).2.2.1 _ 0 1
     (C13_back_index_accuracy 2 (by decide) exFull exFull_reachable).1
     (by decide) (by decide),
   (C13_back_index_accuracy 2 (by decide) exFull exFull_reachable).2.2.2.2.2 _
     (C13_back_index_accuracy 2 (by decide) exFull exFull_reachable).1 (by decide)⟩

/-- C14 (Get does not update the timestamp): in every state reachable from `NewLRU(C)`
with `C ≥ 1`, for every key and clock reading, `Get` returns normally and hands back the
very same state: every `lastAccessTime`, the key set, the values, the `heapIdx` fields
and the order of the heap slots.  On a hit, the `heap.Fix` at the entry's `heapIdx`
performs no swap: its `down` reports that nothing moved and its `up` returns the heap as
it was. -/
theorem C14_get_keeps_timestamps (C : Int) (hC : 1 ≤ C) (l : LRU V) (hr : Reachable C l)
    (k : Key) (t : Int) :
    (∃ r, Get l k t = some (l, r)) ∧
    (∀ p e, mapGet l.entries k = some p → l.mem[p]? = some e →
      heap.down ⟨l.mem, l.heap⟩ e.heapIdx (Len ⟨l.mem, l.heap⟩) =
        some (⟨l.mem, l.heap⟩, false) ∧
      heap.up ⟨l.mem, l.heap⟩ e.heapIdx = some ⟨l.mem, l.heap⟩ ∧
      heap.Fix ⟨l.mem, l.heap⟩ e.heapIdx = some ⟨l.mem, l.heap⟩) := by
  obtain ⟨hi, _⟩ := Reachable_inv hC hr
  refine ⟨⟨_, Get_eq hi.wf k t⟩, ?_⟩
  intro p e hm he
  obtain ⟨i, e', hslot, he', hei, _⟩ := Wf_slot hi.wf hm
  rw [he] at he'
  cases he'
  rw [hei]
  have hil : i < l.heap.length := getElem?_lt hslot
  refine ⟨?_, ?_, heap_Fix_noop _ i hi.wf.idx hi.wf.ord hil⟩
  · unfold heap.down Len
    simp only [Int.toNat_ofNat]
    rw [downLoop_noop _ ⟨l.mem, l.heap⟩ l.heap.length i hi.wf.idx (le_refl _) hi.wf.ord]
    simp
  · unfold heap.up
    simp only [Int.toNat_ofNat]
    exact upLoop_noop _ ⟨l.mem, l.heap⟩ i hi.wf.idx hil (fun h => hi.wf.ord i h hil)

/-- C14 on the full example cache and the held key `"a"`, read at clock reading 9. -/
theorem C14_witness :
    (1 : Int) ≤ 2 ∧ Reachable 2 exFull ∧
    (∃ r, Get exFull keyA 9 = some (exFull, r)) ∧
    (∀ p e, mapGet exFull.entries keyA = some p → exFull.mem[p]? = some e →
      heap.down ⟨exFull.mem, exFull.heap⟩ e.heapIdx (Len ⟨exFull.mem, exFull.heap⟩) =
        some (⟨exFull.mem, exFull.heap⟩, false) ∧
      heap.up ⟨exFull.mem, exFull.heap⟩ e.heapIdx = some ⟨exFull.mem, exFull.heap⟩ ∧
      heap.Fix ⟨exFull.mem, exFull.heap⟩ e.heapIdx = some ⟨exFull.mem, exFull.heap⟩) :=
  ⟨by decide, exFull_reachable,
   C14_get_keeps_timestamps 2 (by decide) exFull exFull_reachable keyA 9⟩

/-- C17 (equal timestamps break insertion order): on `NewLRU(3)`, put the distinct keys
`"a"`, `"b"`, `"c"`, `"d"`, `"e"` in that order, all at clock reading 7.  The fourth
`Put` evicts `"a"`; the fifth evicts `"c"`, inserted later than `"b"`: afterwards
`Get("c")` is not found while `Get("b")` returns its value. -/
theorem C17_equal_timestamps_break_insertion_order :
    ∃ l4 l5 : LRU Nat,
      run (NewLRU 3) [Op.put keyA (some 1) 7, Op.put keyB (some 2) 7, Op.put keyC (some 3) 7,
        Op.put keyD (some 4) 7] = some l4 ∧
      Get l4 keyA 7 = some (l4, (none, false)) ∧
      Get l4 keyC 7 = some (l4, (some 3, true)) ∧
      Put l4 keyE (some 5) 7 = some l5 ∧
      Get l5 keyC 7 = some (l5, (none, false)) ∧
      Get l5 keyB 7 = some (l5, (some 2, true)) := by
  refine ⟨{ capacity := 3,
            entries := [(keyD, 3), (keyC, 2), (keyB, 1)],
            heap := [2, 1, 3],
            mem := [{ heapIdx := 2, lastAccessTime := 7, key := keyA, val := some 1 },
                    { heapIdx := 1, lastAccessTime := 7, key := keyB, val := some 2 },
                    { heapIdx := 0, lastAccessTime := 7, key := keyC, val := some 3 },
                    { heapIdx := 2, lastAccessTime := 7, key := keyD, val := some 4 }] },
          { capacity := 3,
            entries := [(keyE, 4), (keyD, 3), (keyB, 1)],
            heap := [3, 1, 4],
            mem := [{ heapIdx := 2, lastAccessTime := 7, key := keyA, val := some 1 },
                    { heapIdx := 1, lastAccessTime := 7, key := keyB, val := some 2 },
                    { heapIdx := 2, lastAccessTime := 7, key := keyC, val := some 3 },
                    { heapIdx := 0, lastAccessTime := 7, key := keyD, val := some 4 },
                    { heapIdx := 2, lastAccessTime := 7, key := keyE, val := some 5 }] },
          ?_⟩
  decide

/-- C18 (Put touches one value only): in every state reachable from `NewLRU(C)` with
`C ≥ 1`, `Put(k, v)` returns normally, and every key `k'` other than `k` that is in the
table afterwards holds what it held before: the same value, so `Get(k')` returns the
same pair before and after, and the same `lastAccessTime`.  When `k` was in the table
before the call, the table, and so the set of held keys, is unchanged. -/
theorem C18_put_frame (C : Int) (hC : 1 ≤ C) (l : LRU V) (hr : Reachable C l)
    (k : Key) (v : Option V) (t : Int) :
    ∃ l', Put l k v t = some l' ∧
      (∀ k', k' ≠ k → mapGet l'.entries k' ≠ none →
        held l' k' = held l k' ∧
        ∀ t1 t2, (Get l' k' t1).map Prod.snd = (Get l k' t2).map Prod.snd) ∧
      (mapGet l.entries k ≠ none → l'.entries = l.entries) := by
  obtain ⟨hi, _⟩ := Reachable_inv hC hr
  have hmain : ∃ l', Put l k v t = some l' ∧ Inv l' ∧
      (∀ k', k' ≠ k → mapGet l'.entries k' ≠ none → held l' k' = held l k') ∧
      (mapGet l.entries k ≠ none → l'.entries = l.entries) := by
    cases h : held l k with
    | some d =>
      obtain ⟨l', hp, hi', _, hent, _, hh⟩ := Put_hit_spec l k v t hi d h
      refine ⟨l', hp, hi', ?_, fun _ => hent⟩
      intro k' hne _
      rw [hh]
      simp [hne]
    | none =>
      have hm := (held_eq_none_iff hi.wf k).1 h
      by_cases hroom : (l.entries.length : Int) < l.capacity
      · obtain ⟨l', hp, hi', _, _, hh, _⟩ := Put_room_spec l k v t hi h hroom
        refine ⟨l', hp, hi', ?_, fun hc => absurd hm hc⟩
        intro k' hne _
        rw [hh]
        simp [hne]
      · obtain ⟨l', x, ex, hp, hi', _, _, _, _, _, hh, _, _⟩ :=
          Put_full_spec l k v t hi h (by omega)
        refine ⟨l', hp, hi', ?_, fun hc => absurd hm hc⟩
        intro k' hne hin
        have hne2 : ¬ (k' = ex.key) := by
          intro e
          subst e
          apply hin
          rw [← held_eq_none_iff hi'.wf, hh]
          simp [hne]
        rw [hh]
        simp [hne, hne2]
  obtain ⟨l', hp, hi', hfr, hkeys⟩ := hmain
  refine ⟨l', hp, ?_, hkeys⟩
  intro k' hne hin
  refine ⟨hfr k' hne hin, ?_⟩
  intro t1 t2
  rw [Get_eq hi'.wf, Get_eq hi.wf, hfr k' hne hin]
  rfl

/-- C18 on the full example cache and the new key `"c"`: `"b"` stays and is framed. -/
theorem C18_witness :
    (1 : Int) ≤ 2 ∧ Reachable 2 exFull ∧
    ∃ l', Put exFull keyC (some 3) 3 = some l' ∧
      (∀ k', k' ≠ keyC → mapGet l'.entries k' ≠ none →
        held l' k' = held exFull k' ∧
        ∀ t1 t2, (Get l' k' t1).map Prod.snd = (Get exFull k' t2).map Prod.snd) ∧
      (mapGet exFull.entries keyC ≠ none → l'.entries = exFull.entries) :=
  ⟨by decide, exFull_reachable,
   C18_put_frame 2 (by decide) exFull exFull_reachable keyC (some 3) 3⟩

theorem Put_nonpositive (c : Int) (hc : c ≤ 0) (k : Key) (v : Option V) (t : Int) :
    Put (NewLRU c : LRU V) k v t = none := by
  have h1 : ((0 : Nat) : Int) ≥ c := by simpa using hc
  simp [Put, NewLRU, mapGet, hc, heap.Pop, Swap, index]

/-- C19 (non-positive capacity faults at the first Put): for every capacity `c ≤ 0`,
`NewLRU(c)` returns an empty cache without a fault; every `Get` on it returns
`(nil, false)` and leaves it as it is; every `Put` on it faults, because the eviction
test `len(entries) >= capacity` holds on the empty table and `heap.Pop` then calls
`Swap(0, -1)` on the empty slice; so the empty cache is the only state ever reached and
no entry is ever stored. -/
theorem C19_nonpositive_capacity_faults (c : Int) (hc : c ≤ 0) :
    (NewLRU.call c : Option (LRU V)) = some (NewLRU c) ∧
    (NewLRU c : LRU V).entries = [] ∧ (NewLRU c : LRU V).heap = [] ∧
    (∀ k t, Get (NewLRU c : LRU V) k t = some (NewLRU c, (none, false))) ∧
    (((NewLRU c : LRU V).entries.length : Int) ≥ (NewLRU c : LRU V).capacity) ∧
    (Len (⟨[], []⟩ : HeapRef V) - 1 = -1 ∧ Swap (⟨[], []⟩ : HeapRef V) 0 (-1) = none ∧
      heap.Pop (⟨[], []⟩ : HeapRef V) = none) ∧
    (∀ k v t, Put (NewLRU c : LRU V) k v t = none) ∧
    (∀ l : LRU V, Reachable c l → l = NewLRU c) := by
  refine ⟨rfl, rfl, rfl, fun k t => Get_miss _ k t rfl, by simpa [NewLRU] using hc,
    ⟨by simp [Len], by simp [Swap, index], by simp [heap.Pop, Swap, index]⟩,
    fun k v t => Put_nonpositive c hc k v t, ?_⟩
  intro l hr
  induction hr with
  | init => rfl
  | put l l' k v t _ hp ih =>
    rw [ih, Put_nonpositive c hc] at hp
    cases hp
  | get l l' k t r _ hg ih =>
    rw [ih, Get_miss (NewLRU c) k t rfl] at hg
    cases hg
    rfl

/-- C19 at capacity 0. -/
theorem C19_witness :
    (0 : Int) ≤ 0 ∧
    (NewLRU.call 0 : Option (LRU Nat)) = some (NewLRU 0) ∧
    (NewLRU 0 : LRU Nat).entries = [] ∧ (NewLRU 0 : LRU Nat).heap = [] ∧
    (∀ k t, Get (NewLRU 0 : LRU Nat) k t = some (NewLRU 0, (none, false))) ∧
    (((NewLRU 0 : LRU Nat).entries.length : Int) ≥ (NewLRU 0 : LRU Nat).capacity) ∧
    (Len (⟨[], []⟩ : HeapRef Nat) - 1 = -1 ∧ Swap (⟨[], []⟩ : HeapRef Nat) 0 (-1) = none ∧
      heap.Pop (⟨[], []⟩ : HeapRef Nat) = none) ∧
    (∀ k v t, Put (NewLRU 0 : LRU Nat) k v t = none) ∧
    (∀ l : LRU Nat, Reachable 0 l → l = NewLRU 0) :=
  ⟨by decide, C19_nonpositive_capacity_faults 0 (by decide)⟩

/-! ## `heap.Fix` after one priority change -/

theorem downLoop_noop_local (fuel : Nat) (s : HeapRef V) (n i : Nat) (hok : IdxOk s)
    (hn : n ≤ s.h.length)
    (hc : ∀ c, 0 < c → c < n → (c - 1) / 2 = i → slotTime s i ≤ slotTime s c) :
    heap.downLoop (fuel + 1) s n i = some (s, (i : Int)) := by
  by_cases hbrk : (2 * (i : Int) + 1 ≥ (n : Int) ∨ 2 * (i : Int) + 1 < 0)
  · simp only [heap.downLoop, hbrk, if_true]
  · have hj1 : 2 * i + 1 < n := by omega
    have c1 : (2 * (i : Int) + 1) = ((2 * i + 1 : Nat) : Int) := by push_cast; ring
    have c2 : (2 * (i : Int) + 1 + 1) = ((2 * i + 2 : Nat) : Int) := by push_cast; ring
    have hc1 := hc (2 * i + 1) (by omega) hj1 (by omega)
    have hL1 : Less s ((2 * i + 1 : Nat) : Int) (i : Int) = some false := by
      rw [Less_eq s _ _ hok (by omega) (by omega)]
      simp
      omega
    rw [heap.downLoop]
    simp only [hbrk, if_false]
    by_cases h2 : 2 * (i : Int) + 1 + 1 < (n : Int)
    · have hc2 := hc (2 * i + 2) (by omega) (by omega) (by omega)
      have hL2 : Less s ((2 * i + 2 : Nat) : Int) (i : Int) = some false := by
        rw [Less_eq s _ _ hok (by omega) (by omega)]
        simp
        omega
      simp only [h2, if_true]
      rw [c2, c1, Less_eq s _ _ hok (by omega) (by omega)]
      by_cases hlt : slotTime s (2 * i + 2) < slotTime s (2 * i + 1)
      · simp only [hlt, decide_True, hL2]
      · simp only [hlt, decide_False, hL1]
    · simp only [h2, if_false]
      rw [c1]
      simp only [hL1]

theorem heap_Fix_spec (s : HeapRef V) (i : Nat) (hok : IdxOk s) (hi : i < s.h.length)
    (h1 : ∀ k, 0 < k → k < s.h.length → k ≠ i → (k - 1) / 2 ≠ i →
      slotTime s ((k - 1) / 2) ≤ slotTime s k)
    (h2 : ∀ k, 0 < k → k < s.h.length → (k - 1) / 2 = i → 0 < i →
      slotTime s ((i - 1) / 2) ≤ slotTime s k) :
    ∃ s', heap.Fix s (i : Int) = some s' ∧ HeapOrd s' ∧ s'.h.Perm s.h ∧
      data s'.mem = data s.mem ∧ IdxOk s' := by
  by_cases hB : 0 < i ∧ slotTime s i < slotTime s ((i - 1) / 2)
  · -- the entry is younger than its parent: `down` moves nothing, `up` does the work
    have hchild : ∀ c, 0 < c → c < s.h.length → (c - 1) / 2 = i →
        slotTime s i ≤ slotTime s c := by
      intro c hc0 hcn hpar
      have := h2 c hc0 hcn hpar hB.1
      omega
    have hd : heap.down s (i : Int) (Len s) = some (s, false) := by
      unfold heap.down Len
      simp only [Int.toNat_ofNat]
      rw [downLoop_noop_local _ s s.h.length i hok (le_refl _) hchild]
      simp
    obtain ⟨s', hr, hp, hdat, hok', hord⟩ := upLoop_spec (i + 1) s i hok hi (by omega)
    have hu : heap.up s (i : Int) = some s' := by
      unfold heap.up
      simp only [Int.toNat_ofNat]
      exact hr
    refine ⟨s', by simp [heap.Fix, hd, hu], ?_, hp, hdat, hok'⟩
    apply hord
    constructor
    · intro k hk hkn hki
      by_cases hpar : (k - 1) / 2 = i
      · rw [hpar]
        exact hchild k hk hkn hpar
      · exact h1 k hk hkn hki hpar
    · exact h2
  · -- the entry is not younger than its parent: `down` restores the order
    have hup : 0 < i → slotTime s ((i - 1) / 2) ≤ slotTime s i := by
      intro h0
      by_contra hc
      exact hB ⟨h0, by omega⟩
    have hinv : DownInv s s.h.length i := by
      constructor
      · intro k hk hkn hpar
        by_cases hki : k = i
        · subst hki
          exact hup hk
        · exact h1 k hk hkn hki hpar
      · exact h2
    obtain ⟨s1, i', hdl, hle, hsame, hp, hdat, hok1, _, hord1⟩ :=
      downLoop_spec s.h.length s s.h.length i hok (le_refl _) (by omega)
    have hH1 : HeapOrd s1 := by
      unfold HeapOrd
      rw [hp.length_eq]
      exact hord1 hinv
    have hd : heap.down s (i : Int) (Len s) = some (s1, decide (i' > (i : Int))) := by
      unfold heap.down Len
      simp only [Int.toNat_ofNat]
      rw [hdl]
    by_cases hmoved : i' > (i : Int)
    · refine ⟨s1, ?_, hH1, hp, hdat, hok1⟩
      simp [heap.Fix, hd, hmoved]
    · have hi' : i' = (i : Int) := by omega
      have hs1 : s1 = s := hsame hi'
      subst hs1
      have hu : heap.up s1 (i : Int) = some s1 := by
        unfold heap.up
        simp only [Int.toNat_ofNat]
        exact upLoop_noop _ s1 i hok hi hup
      refine ⟨s1, ?_, hH1, hp, hdat, hok1⟩
      simp [heap.Fix, hd, hmoved, hu]

theorem setTime_IdxOk (s0 : HeapRef V) (p : Nat) (e : entry V) (t : Int) (hok : IdxOk s0)
    (he : s0.mem[p]? = some e) :
    IdxOk ⟨s0.mem.set p { e with lastAccessTime := t }, s0.h⟩ := by
  have hpl : p < s0.mem.length := getElem?_lt he
  intro k r hk
  obtain ⟨e', he', hek⟩ := hok k r hk
  by_cases hr : p = r
  · subst hr
    rw [he] at he'
    cases he'
    exact ⟨{ e with lastAccessTime := t }, by simp [List.getElem?_set, hpl], hek⟩
  · exact ⟨e', by simpa [List.getElem?_set, hr] using he', hek⟩

theorem setTime_slotTime (s0 : HeapRef V) (i p : Nat) (e : entry V) (t : Int)
    (hok : IdxOk s0) (hi : s0.h[i]? = some p) (k : Nat) (hki : k ≠ i) :
    slotTime ⟨s0.mem.set p { e with lastAccessTime := t }, s0.h⟩ k = slotTime s0 k := by
  unfold slotTime
  simp only
  cases hk : s0.h[k]? with
  | none => rfl
  | some r =>
    have hr : p ≠ r := by
      intro h
      subst h
      exact hki (IdxOk_inj hok hk hi)
    simp [timeOf, List.getElem?_set, hr]

theorem setTime_away (s0 : HeapRef V) (i p : Nat) (e : entry V) (t : Int)
    (hok : IdxOk s0) (hord : HeapOrd s0) (hi : s0.h[i]? = some p) :
    ∀ k, 0 < k → k < s0.h.length → k ≠ i → (k - 1) / 2 ≠ i →
      slotTime ⟨s0.mem.set p { e with lastAccessTime := t }, s0.h⟩ ((k - 1) / 2) ≤
        slotTime ⟨s0.mem.set p { e with lastAccessTime := t }, s0.h⟩ k := by
  intro k hk hkn hki hpar
  rw [setTime_slotTime s0 i p e t hok hi k hki, setTime_slotTime s0 i p e t hok hi _ hpar]
  exact hord k hk hkn

theorem setTime_grand (s0 : HeapRef V) (i p : Nat) (e : entry V) (t : Int)
    (hok : IdxOk s0) (hord : HeapOrd s0) (hi : s0.h[i]? = some p) :
    ∀ k, 0 < k → k < s0.h.length → (k - 1) / 2 = i → 0 < i →
      slotTime ⟨s0.mem.set p { e with lastAccessTime := t }, s0.h⟩ ((i - 1) / 2) ≤
        slotTime ⟨s0.mem.set p { e with lastAccessTime := t }, s0.h⟩ k := by
  intro k hk hkn hpar h0
  have hil : i < s0.h.length := getElem?_lt hi
  rw [setTime_slotTime s0 i p e t hok hi k (by omega),
    setTime_slotTime s0 i p e t hok hi _ (by omega)]
  have e1 := hord k hk hkn
  have e2 := hord i h0 hil
  rw [hpar] at e1
  omega

theorem heap_Fix_after_change (s0 : HeapRef V) (i p : Nat) (e : entry V) (t : Int)
    (hok : IdxOk s0) (hord : HeapOrd s0) (hi : s0.h[i]? = some p)
    (he : s0.mem[p]? = some e) :
    ∃ s', heap.Fix ⟨s0.mem.set p { e with lastAccessTime := t }, s0.h⟩ (i : Int) = some s' ∧
      HeapOrd s' ∧ s'.h.Perm s0.h ∧
      data s'.mem = data (s0.mem.set p { e with lastAccessTime := t }) ∧ IdxOk s' :=
  heap_Fix_spec _ i (setTime_IdxOk s0 p e t hok he) (getElem?_lt hi)
    (setTime_away s0 i p e t hok hord hi) (setTime_grand s0 i p e t hok hord hi)

theorem exBroken_IdxOk : IdxOk exBroken := by
  intro i p h
  have hi : i < 4 := getElem?_lt h
  have hcases : i = 0 ∨ i = 1 ∨ i = 2 ∨ i = 3 := by omega
  rcases hcases with h0 | h0 | h0 | h0 <;> subst h0 <;>
    simp [exBroken] at h <;> subst h <;> simp [exBroken]

/-- C15 as stated fails on the heap with the slot times 5, 10, 6, 1 and `i = 1`.  Its
back-indices are accurate and every relation that does not involve slot 1 is in order
(there is one, between the slots 0 and 2).  `heap.Fix` at 1 sifts the entry down to slot 3
and stops, since the sift down moved something: the slot times it leaves are 5, 1, 6, 10,
and slot 1 is older than its parent. -/
theorem C15_counterexample :
    exBroken.h.length = 4 ∧ IdxOk exBroken ∧
    (∀ k, 0 < k → k < exBroken.h.length → k ≠ 1 → (k - 1) / 2 ≠ 1 →
      slotTime exBroken ((k - 1) / 2) ≤ slotTime exBroken k) ∧
    ∃ s', heap.Fix exBroken ((1 : Nat) : Int) = some s' ∧
      (List.range 4).map (slotTime s') = [5, 1, 6, 10] ∧
      slotTime s' 1 < slotTime s' ((1 - 1) / 2) ∧ ¬ HeapOrd s' := by
  refine ⟨rfl, exBroken_IdxOk, ?_, ?_⟩
  · intro k hk hkn h1 h2
    have hk4 : k < 4 := hkn
    have hcases : k = 2 := by omega
    subst hcases
    decide
  · refine ⟨{ mem := [{ heapIdx := 0, lastAccessTime := 5, key := keyA, val := some 1 },
                      { heapIdx := 3, lastAccessTime := 10, key := keyB, val := some 2 },
                      { heapIdx := 2, lastAccessTime := 6, key := keyC, val := some 3 },
                      { heapIdx := 1, lastAccessTime := 1, key := keyD, val := some 4 }],
              h := [0, 3, 2, 1] }, by decide, by decide, by decide, ?_⟩
    intro hord
    have := hord 1 (by decide) (by decide)
    revert this
    decide

/-- C15, amended (Fix restores order after a single priority change): take a non-empty
heap with accurate `heapIdx` fields that satisfies the min-heap property on
`lastAccessTime` on every relation that does not involve slot `i`, and in which no child
of slot `i` is older than the parent of slot `i`; this is the case when the entry at `i`
of an ordered heap had its `lastAccessTime` changed to an arbitrary value.  `heap.Fix` at
`i` (sift down from `i`, and sift up from `i` only if the sift down moved nothing) returns
normally; the heap it yields satisfies the min-heap property everywhere, its slots are a
permutation of the slots before, no entry has changed its time, key or value, and every
`heapIdx` is accurate. -/
theorem C15_fix_restores_order (s : HeapRef V) (i : Nat) (hok : IdxOk s)
    (hi : i < s.h.length)
    (haway : ∀ k, 0 < k → k < s.h.length → k ≠ i → (k - 1) / 2 ≠ i →
      slotTime s ((k - 1) / 2) ≤ slotTime s k)
    (hgrand : ∀ k, 0 < k → k < s.h.length → (k - 1) / 2 = i → 0 < i →
      slotTime s ((i - 1) / 2) ≤ slotTime s k) :
    ∃ s', heap.Fix s (i : Int) = some s' ∧ HeapOrd s' ∧ s'.h.Perm s.h ∧
      data s'.mem = data s.mem ∧ IdxOk s' :=
  heap_Fix_spec s i hok hi haway hgrand

theorem run_reachable {C : Int} : ∀ (ops : List (Op V)) (l l' : LRU V),
    Reachable C l → run l ops = some l' → Reachable C l'
  | [], l, l', hr, h => by
    simp only [run, Option.some.injEq] at h
    subst h
    exact hr
  | Op.put k v t :: os, l, l', hr, h => by
    simp only [run, step] at h
    cases hp : Put l k v t with
    | none => simp [hp] at h
    | some l1 =>
      rw [hp] at h
      exact run_reachable os l1 l' (Reachable.put l l1 k v t hr hp) h
  | Op.get k t :: os, l, l', hr, h => by
    simp only [run, step] at h
    cases hg : Get l k t with
    | none => simp [hg] at h
    | some r =>
      rw [hg] at h
      exact run_reachable os r.1 l' (Reachable.get l r.1 k t r.2 hr hg) h

theorem exFour_reachable : Reachable 4 exFour :=
  run_reachable [Op.put keyA (some 1) 1, Op.put keyB (some 2) 2, Op.put keyC (some 3) 3,
    Op.put keyD (some 4) 4] (NewLRU 4) exFour Reachable.init (by decide)

/-- C15, amended, on the heap of the four-entry example cache (times 1, 2, 3, 4) after
the time of the entry at slot 1 is changed to 9: slot 1 has a parent and a child, and
`heap.Fix` at slot 1 sifts the entry down one level, which leaves the slots in the order
`"a"`, `"d"`, `"c"`, `"b"`. -/
theorem C15_witness :
    IdxOk (⟨exFour.mem.set 1
        { heapIdx := 1, lastAccessTime := 9, key := keyB, val := some 2 }, exFour.heap⟩ :
        HeapRef Nat) ∧
    1 < exFour.heap.length ∧
    (heap.Fix (⟨exFour.mem.set 1
        { heapIdx := 1, lastAccessTime := 9, key := keyB, val := some 2 }, exFour.heap⟩ :
        HeapRef Nat) ((1 : Nat) : Int)).map (fun s => s.h) = some [0, 3, 2, 1] ∧
    ∃ s', heap.Fix (⟨exFour.mem.set 1
        { heapIdx := 1, lastAccessTime := 9, key := keyB, val := some 2 }, exFour.heap⟩ :
        HeapRef Nat) ((1 : Nat) : Int) = some s' ∧
      HeapOrd s' ∧ s'.h.Perm exFour.heap ∧
      data s'.mem = data (exFour.mem.set 1
        { heapIdx := 1, lastAccessTime := 9, key := keyB, val := some 2 }) ∧ IdxOk s' :=
  ⟨setTime_IdxOk ⟨exFour.mem, exFour.heap⟩ 1
     { heapIdx := 1, lastAccessTime := 2, key := keyB, val := some 2 } 9
     (Reachable_inv (by decide) exFour_reachable).1.wf.idx (by decide),
   by decide, by decide,
   C15_fix_restores_order
     ⟨exFour.mem.set 1 { heapIdx := 1, lastAccessTime := 9, key := keyB, val := some 2 },
      exFour.heap⟩ 1
     (setTime_IdxOk ⟨exFour.mem, exFour.heap⟩ 1
       { heapIdx := 1, lastAccessTime := 2, key := keyB, val := some 2 } 9
       (Reachable_inv (by decide) exFour_reachable).1.wf.idx (by decide))
     (by decide)
     (setTime_away ⟨exFour.mem, exFour.heap⟩ 1 1
       { heapIdx := 1, lastAccessTime := 2, key := keyB, val := some 2 } 9
       (Reachable_inv (by decide) exFour_reachable).1.wf.idx
       (Reachable_inv (by decide) exFour_reachable).1.wf.ord (by decide))
     (setTime_grand ⟨exFour.mem, exFour.heap⟩ 1 1
       { heapIdx := 1, lastAccessTime := 2, key := keyB, val := some 2 } 9
       (Reachable_inv (by decide) exFour_reachable).1.wf.idx
       (Reachable_inv (by decide) exFour_reachable).1.wf.ord (by decide))⟩

/-! ## The cache is first-in-first-out under a strictly increasing clock -/

theorem fifoLookup_untimed (tq : List (Key × Option V × Int)) (k : Key) :
    fifoLookup (untimed tq) k = (lookupT tq k).map (fun d => d.2) := by
  induction tq with
  | nil => rfl
  | cons e tq ih =>
    obtain ⟨k', v, t⟩ := e
    by_cases h : k' = k
    · simp [untimed, fifoLookup, lookupT, h]
    · simpa [untimed, fifoLookup, lookupT, h] using ih

theorem lookupT_none_iff (tq : List (Key × Option V × Int)) (k : Key) :
    lookupT tq k = none ↔ k ∉ tq.map (fun e => e.1) := by
  induction tq with
  | nil => simp [lookupT]
  | cons e tq ih =>
    obtain ⟨k', v, t⟩ := e
    by_cases h : k' = k
    · simp [lookupT, h]
    · have h' : ¬ (k = k') := fun e => h e.symm
      simp [lookupT, h, h', ih]

theorem lookupT_mem (tq : List (Key × Option V × Int)) (k : Key) (d : Int × Option V)
    (h : lookupT tq k = some d) : (k, d.2, d.1) ∈ tq := by
  induction tq with
  | nil => simp [lookupT] at h
  | cons e tq ih =>
    obtain ⟨k', v, t⟩ := e
    by_cases hk : k' = k
    · simp only [lookupT, hk, if_true, Option.some.injEq] at h
      subst h
      subst hk
      exact List.mem_cons_self _ _
    · simp only [lookupT, hk, if_false] at h
      exact List.mem_cons_of_mem _ (ih h)

theorem lookupT_append (tq : List (Key × Option V × Int)) (k k' : Key) (v : Option V)
    (t : Int) :
    lookupT (tq ++ [(k, v, t)]) k' =
      match lookupT tq k' with
      | some d => some d
      | none => if k' = k then some (t, v) else none := by
  induction tq with
  | nil =>
    by_cases h : k = k'
    · simp [lookupT, h]
    · have h' : ¬ (k' = k) := fun e => h e.symm
      simp [lookupT, h, h']
  | cons e tq ih =>
    obtain ⟨k0, v0, t0⟩ := e
    by_cases h : k0 = k'
    · simp [lookupT, h]
    · simpa [lookupT, h] using ih

theorem lookupT_cons (tq : List (Key × Option V × Int)) (k0 k : Key) (v : Option V)
    (t : Int) :
    lookupT ((k0, v, t) :: tq) k = if k0 = k then some (t, v) else lookupT tq k := rfl

theorem lookupT_replace (tq : List (Key × Option V × Int)) (k k' : Key) (v : Option V) :
    lookupT (tq.map (fun e => if e.1 = k then (e.1, v, e.2.2) else e)) k' =
      if k' = k then (lookupT tq k).map (fun d => (d.1, v)) else lookupT tq k' := by
  induction tq with
  | nil => simp [lookupT]
  | cons e tq ih =>
    obtain ⟨k0, v0, t0⟩ := e
    by_cases h0 : k0 = k
    · have hf : (if (k0, v0, t0).1 = k then ((k0, v0, t0).1, v, (k0, v0, t0).2.2)
          else (k0, v0, t0)) = (k0, v, t0) := by simp [h0]
      rw [List.map_cons, hf, lookupT_cons, lookupT_cons, ih]
      subst h0
      by_cases h1 : k' = k0
      · subst h1
        simp
      · have h1' : ¬ (k0 = k') := fun e => h1 e.symm
        simp [h1, h1', lookupT_cons]
    · have hf : (if (k0, v0, t0).1 = k then ((k0, v0, t0).1, v, (k0, v0, t0).2.2)
          else (k0, v0, t0)) = (k0, v0, t0) := by simp [h0]
      rw [List.map_cons, hf, lookupT_cons, lookupT_cons, ih]
      by_cases h1 : k' = k
      · subst h1
        simp [h0, lookupT_cons]
      · by_cases h2 : k0 = k'
        · simp [h1, h2, lookupT_cons]
        · simp [h1, h2, lookupT_cons]

theorem untimed_replace (tq : List (Key × Option V × Int)) (k : Key) (v : Option V) :
    untimed (tq.map (fun e => if e.1 = k then (e.1, v, e.2.2) else e)) =
      (untimed tq).map (fun e => if e.1 = k then (e.1, v) else e) := by
  unfold untimed
  rw [List.map_map, List.map_map]
  apply List.map_congr_left
  intro e _
  by_cases h : e.1 = k
  · simp [h]
  · simp [h]

theorem replace_keys (tq : List (Key × Option V × Int)) (k : Key) (v : Option V) :
    (tq.map (fun e => if e.1 = k then (e.1, v, e.2.2) else e)).map (fun e => e.1) =
      tq.map (fun e => e.1) := by
  rw [List.map_map]
  apply List.map_congr_left
  intro e _
  by_cases h : e.1 = k
  · simp [h]
  · simp [h]

theorem replace_times (tq : List (Key × Option V × Int)) (k : Key) (v : Option V) :
    (tq.map (fun e => if e.1 = k then (e.1, v, e.2.2) else e)).map (fun e => e.2.2) =
      tq.map (fun e => e.2.2) := by
  rw [List.map_map]
  apply List.map_congr_left
  intro e _
  by_cases h : e.1 = k
  · simp [h]
  · simp [h]

theorem Put_sim (C : Int) (l : LRU V) (tq : List (Key × Option V × Int)) (k : Key)
    (v : Option V) (t : Int) (hs : Sim C l tq) (hlt : ∀ e ∈ tq, e.2.2 < t) :
    ∃ l' tq', Put l k v t = some l' ∧ Sim C l' tq' ∧
      untimed tq' = fifoPut C (untimed tq) k v ∧ (∀ e ∈ tq', e.2.2 ≤ t) := by
  have hlenq : (untimed tq).length = tq.length := by simp [untimed]
  cases h : held l k with
  | some d =>
    obtain ⟨l', hp, hi', hcap, hent, _, hh⟩ := Put_hit_spec l k v t hs.inv d h
    have hl : lookupT tq k = some d := by rw [← hs.held, h]
    refine ⟨l', tq.map (fun e => if e.1 = k then (e.1, v, e.2.2) else e), hp,
      ⟨hi', hcap.trans hs.cap, ?_, ?_, ?_, ?_⟩, ?_, ?_⟩
    · rw [hent, List.length_map]
      exact hs.len
    · rw [replace_keys]
      exact hs.keys
    · rw [replace_times]
      exact hs.times
    · intro k'
      rw [hh, lookupT_replace, ← hs.held k, ← hs.held k', h]
      rfl
    · rw [untimed_replace]
      unfold fifoPut
      rw [fifoLookup_untimed, hl]
      rfl
    · intro e he
      have hmem : e.2.2 ∈ (tq.map (fun e => if e.1 = k then (e.1, v, e.2.2) else e)).map
          (fun e => e.2.2) := List.mem_map.2 ⟨e, he, rfl⟩
      rw [replace_times] at hmem
      obtain ⟨e', he', heq⟩ := List.mem_map.1 hmem
      have := hlt e' he'
      omega
  | none =>
    have hl : lookupT tq k = none := by rw [← hs.held, h]
    have hknew : k ∉ tq.map (fun e => e.1) := (lookupT_none_iff tq k).1 hl
    have hfl : fifoLookup (untimed tq) k = none := by
      rw [fifoLookup_untimed, hl]
      rfl
    by_cases hroom : (l.entries.length : Int) < l.capacity
    · obtain ⟨l', hp, hi', hcap, hlen, hh, _⟩ := Put_room_spec l k v t hs.inv h hroom
      refine ⟨l', tq ++ [(k, v, t)], hp, ⟨hi', hcap.trans hs.cap, ?_, ?_, ?_, ?_⟩, ?_, ?_⟩
      · rw [hlen, List.length_append, List.length_singleton, hs.len]
      · rw [List.map_append, List.nodup_append]
        refine ⟨hs.keys, by simp, ?_⟩
        intro a ha hb
        simp only [List.map_cons, List.map_nil, List.mem_singleton] at hb
        subst hb
        exact hknew ha
      · rw [List.map_append, List.pairwise_append]
        refine ⟨hs.times, by simp, ?_⟩
        intro a ha b hb
        simp only [List.map_cons, List.map_nil, List.mem_singleton] at hb
        subst hb
        obtain ⟨e, he, heq⟩ := List.mem_map.1 ha
        have := hlt e he
        omega
      · intro k'
        rw [hh, lookupT_append, ← hs.held]
        by_cases hk : k' = k
        · subst hk
          simp [h]
        · simp only [hk, if_false]
          cases held l k' <;> rfl
      · unfold fifoPut
        rw [hfl]
        have hne : ¬ (((untimed tq).length : Int) = C) := by
          rw [hlenq, hs.len, ← hs.cap]
          omega
        simp only [hne, if_false]
        simp [untimed]
      · intro e he
        rcases List.mem_append.1 he with he | he
        · have := hlt e he
          omega
        · simp only [List.mem_singleton] at he
          subst he
          exact le_refl _
    · have hfull : (l.entries.length : Int) ≥ l.capacity := by omega
      obtain ⟨l', x, ex, hp, hi', hcap, hx0, hex, hmx, hlen, hh, hmin, _⟩ :=
        Put_full_spec l k v t hs.inv h hfull
      have hCeq : (l.entries.length : Int) = C := by
        have := hs.inv.cap
        rw [← hs.cap]
        omega
      -- the queue is not empty
      have htne : tq ≠ [] := by
        intro htq
        have h1 := hs.len
        have h2 := hs.inv.pos
        rw [htq] at h1
        simp at h1
        rw [hs.cap] at h2
        omega
      obtain ⟨e0, rest, htq⟩ := List.exists_cons_of_ne_nil htne
      obtain ⟨k0, v0, t0⟩ := e0
      have hkeys := hs.keys
      have htimes := hs.times
      rw [htq] at hkeys htimes hknew hlt
      simp only [List.map_cons, List.nodup_cons, List.pairwise_cons] at hkeys htimes
      have hlook : ∀ k', lookupT tq k' = if k0 = k' then some (t0, v0) else lookupT rest k' := by
        intro k'
        rw [htq]
        rfl
      -- the evicted key is the front of the queue
      have hfront : ex.key = k0 := by
        have h0 : held l k0 = some (t0, v0) := by
          rw [hs.held, hlook]
          simp
        have hle := hmin k0 _ h0
        have hexh : lookupT tq ex.key = some (ex.lastAccessTime, ex.val) := by
          rw [← hs.held]
          exact held_of_mapGet hmx hex
        by_contra hne
        have hne' : ¬ (k0 = ex.key) := fun e => hne e.symm
        rw [hlook] at hexh
        simp only [hne', if_false] at hexh
        have hmem := lookupT_mem rest _ _ hexh
        have := htimes.1 ex.lastAccessTime (List.mem_map.2 ⟨_, hmem, rfl⟩)
        simp only at hle
        omega
      have hrest : ∀ k', lookupT rest k' = if k' = k0 then none else lookupT tq k' := by
        intro k'
        rw [hlook]
        by_cases hk : k' = k0
        · subst hk
          simp only [if_true]
          exact (lookupT_none_iff rest k').2 hkeys.1
        · have hk' : ¬ (k0 = k') := fun e => hk e.symm
          simp [hk, hk']
      have hkk0 : ¬ (k = k0) := by
        intro e
        apply hknew
        simp [e]
      refine ⟨l', rest ++ [(k, v, t)], hp, ⟨hi', hcap.trans hs.cap, ?_, ?_, ?_, ?_⟩, ?_, ?_⟩
      · rw [hlen, ← hs.len, htq]
        simp
      · rw [List.map_append, List.nodup_append]
        refine ⟨hkeys.2, by simp, ?_⟩
        intro a ha hb
        simp only [List.map_cons, List.map_nil, List.mem_singleton] at hb
        subst hb
        apply hknew
        simp [ha]
      · rw [List.map_append, List.pairwise_append]
        refine ⟨htimes.2, by simp, ?_⟩
        intro a ha b hb
        simp only [List.map_cons, List.map_nil, List.mem_singleton] at hb
        subst hb
        obtain ⟨e, he, heq⟩ := List.mem_map.1 ha
        have := hlt e (List.mem_cons_of_mem _ he)
        omega
      · intro k'
        rw [hh, lookupT_append, hrest, hfront, ← hs.held]
        by_cases hk : k' = k
        · subst hk
          simp [hkk0, h]
        · simp only [hk, if_false]
          by_cases hk0 : k' = k0
          · simp [hk0]
          · simp only [hk0, if_false]
            cases held l k' <;> rfl
      · unfold fifoPut
        rw [hfl]
        have heq : ((untimed tq).length : Int) = C := by
          rw [hlenq, hs.len]
          exact hCeq
        simp only [heq, if_true]
        rw [htq]
        simp [untimed]
      · intro e he
        rcases List.mem_append.1 he with he | he
        · have := hlt e (List.mem_cons_of_mem _ he)
          omega
        · simp only [List.mem_singleton] at he
          subst he
          exact le_refl _

theorem getResults_sim (C : Int) : ∀ (ops : List (Op V)) (l : LRU V)
    (tq : List (Key × Option V × Int)), Sim C l tq →
    (∀ e ∈ tq, ∀ o ∈ ops, e.2.2 < clockOf o) →
    (ops.map clockOf).Pairwise (fun a b => a < b) →
    getResults l ops = some (fifoResults C (untimed tq) ops)
  | [], _, _, _, _, _ => rfl
  | Op.get k t :: os, l, tq, hs, hlt, hmono => by
    simp only [List.map_cons, List.pairwise_cons] at hmono
    have ih := getResults_sim C os l tq hs
      (fun e he o ho => hlt e he o (List.mem_cons_of_mem _ ho)) hmono.2
    have hget : fifoGet (untimed tq) k = answer (held l k) := by
      unfold fifoGet
      rw [fifoLookup_untimed, ← hs.held]
      cases held l k <;> rfl
    simp only [getResults, fifoResults, Get_eq hs.inv.wf, Option.some_bind, ih, Option.map_some',
      hget]
  | Op.put k v t :: os, l, tq, hs, hlt, hmono => by
    simp only [List.map_cons, List.pairwise_cons] at hmono
    obtain ⟨l', tq', hp, hs', hq, hle⟩ := Put_sim C l tq k v t hs
      (fun e he => hlt e he _ (List.mem_cons_self _ _))
    have ih := getResults_sim C os l' tq' hs' (fun e he o ho => by
      have h1 := hle e he
      have h2 : t < clockOf o := hmono.1 (clockOf o) (List.mem_map.2 ⟨o, ho, rfl⟩)
      omega) hmono.2
    simp only [getResults, fifoResults, hp, Option.some_bind, ih, hq]

/-- C16 (first-in-first-out under a strictly increasing clock): on `NewLRU(C)` with
`C ≥ 1`, for every sequence of `Put` and `Get` calls in which each call reads a strictly
larger clock value than the one before, no call panics and every `Get` returns what the
reference FIFO cache of capacity `C` returns: a new key is appended to a queue after
dropping the front of the queue when `C` keys are held, a `Put` on a held key replaces
its value in place, and `Get` moves nothing.  So reads and overwrites never change which
key is evicted next. -/
theorem C16_fifo_under_increasing_clock (C : Int) (hC : 1 ≤ C) (ops : List (Op V))
    (hclock : (ops.map clockOf).Sorted (fun a b => a < b)) :
    getResults (NewLRU C) ops = some (fifoResults C [] ops) := by
  have hs : Sim C (NewLRU C : LRU V) [] :=
    ⟨Inv_NewLRU C hC, rfl, rfl, by simp, by simp, fun k => held_NewLRU C k⟩
  exact getResults_sim C ops (NewLRU C) [] hs (fun e he => by simp at he) hclock

/-- C16 on the scenario of C1: with the clock readings 1, 2, 3, 4, 5, 6 the read of `"a"`
does not save it, and the cache answers as the FIFO queue does. -/
theorem C16_witness :
    (1 : Int) ≤ 2 ∧
    (([Op.put keyA (some 1) 1, Op.put keyB (some 2) 2, Op.get keyA 3, Op.put keyC (some 3) 4,
       Op.get keyA 5, Op.get keyB 6] : List (Op Nat)).map clockOf).Sorted (fun a b => a < b) ∧
    getResults (NewLRU 2) ([Op.put keyA (some 1) 1, Op.put keyB (some 2) 2, Op.get keyA 3,
        Op.put keyC (some 3) 4, Op.get keyA 5, Op.get keyB 6] : List (Op Nat)) =
      some (fifoResults 2 [] [Op.put keyA (some 1) 1, Op.put keyB (some 2) 2, Op.get keyA 3,
        Op.put keyC (some 3) 4, Op.get keyA 5, Op.get keyB 6]) ∧
    fifoResults 2 [] ([Op.put keyA (some 1) 1, Op.put keyB (some 2) 2, Op.get keyA 3,
        Op.put keyC (some 3) 4, Op.get keyA 5, Op.get keyB 6] : List (Op Nat)) =
      [(some 1, true), (none, false), (some 2, true)] :=
  ⟨by decide, by decide,
   C16_fifo_under_increasing_clock 2 (by decide) _ (by decide), by decide⟩

end lru
